import Mathlib

/-!
Verification development of the reminder program, `main.go`.

The program reads a manifest of dated events, computes for every event the
number of whole days left until its deadline (the event date plus one calendar
day) and hands every event that is at most seven days away to `notification`,
which renders a fixed mail template and submits it to a relay.

Modelling conventions.

* An instant (`time.Time`) is an integer number of nanoseconds on the local
  wall clock, counted from 1970-01-01 00:00:00 local time.  The local zone is
  taken to have a constant offset, so every local day lasts 24 hours and the
  offset cancels in every comparison and difference the program makes.
* A `float64` is the exact rational it denotes.  Every arithmetic operation is
  the exact operation followed by `f64Round` (round to nearest, ties to even,
  53 significant bits).  All values the program computes lie between `2^-42`
  and `2^22` or are zero, far away from overflow and from subnormal numbers.
* A Go string is a Lean `String`.
* Library and operating-system services whose code is not part of the
  repository (file reading, JSON decoding, `net.SplitHostPort`,
  `mime.BEncoding.Encode`, `smtp.SendMail`) are parameters of the model.
-/

namespace Reminder

/-! ## Data model -/

/-- The `Event` struct of `main.go`. -/
structure Event where
  Title : String
  Time : String
deriving DecidableEq, Repr

/-- The `Manifest` struct of `main.go`.  `Events` has type `[]*Event`: an entry
is a pointer, and `none` is the nil pointer that a JSON `null` decodes to. -/
structure Manifest where
  Events : List (Option Event)
deriving DecidableEq, Repr

/-! ## `time.Duration` -/

/-- One hour, in nanoseconds (`time.Hour`). -/
def Hour : Int := 3600000000000

/-- One 24-hour day, in nanoseconds. -/
def Day : Int := 86400000000000

/-- The smallest `time.Duration` (`-1 << 63`). -/
def minDuration : Int := -9223372036854775808

/-- The largest `time.Duration` (`1<<63 - 1`). -/
def maxDuration : Int := 9223372036854775807

/-! ## `float64` arithmetic -/

/-- Round a rational to the nearest integer, ties to the even neighbour. -/
def roundHalfEven (q : ℚ) : ℤ :=
  let f := ⌊q⌋
  let r := q - f
  if r < 1 / 2 then f else if 1 / 2 < r then f + 1 else if f % 2 = 0 then f else f + 1

/-- Worker of `ilog2`: halve until the number drops below two. -/
def log2Aux : Nat → Nat → Nat
  | 0, _ => 0
  | fuel + 1, n => if n < 2 then 0 else log2Aux fuel (n / 2) + 1

/-- Floor of the binary logarithm of a positive natural number. -/
def ilog2 (n : Nat) : Nat := log2Aux n n

/-- The binary exponent of a nonzero rational: the `e` with
`2 ^ e ≤ |q| < 2 ^ (e + 1)`. -/
def binExp (q : ℚ) : ℤ :=
  let e0 : ℤ := (ilog2 q.num.natAbs : ℤ) - (ilog2 q.den : ℤ)
  if (2 : ℚ) ^ e0 ≤ |q| then e0 else e0 - 1

/-- Rounding of an exact value to `float64`: nearest multiple of
`2 ^ (binExp q - 52)`, ties to even. -/
def f64Round (q : ℚ) : ℚ :=
  if q = 0 then 0 else
  let u := (2 : ℚ) ^ (binExp q - 52)
  roundHalfEven (q / u) * u

/-- The conversion `float64(i)` of an integer. -/
def f64OfInt (i : Int) : ℚ := f64Round i

/-- The `float64` sum. -/
def f64Add (a b : ℚ) : ℚ := f64Round (a + b)

/-- The `float64` quotient. -/
def f64Div (a b : ℚ) : ℚ := f64Round (a / b)

/-- The conversion `int(x)` of a `float64`: truncation toward zero. -/
def f64ToInt (x : ℚ) : Int := if 0 ≤ x then ⌊x⌋ else ⌈x⌉

/-- The method `Duration.Hours`:
`hour := d / Hour; nsec := d % Hour; float64(hour) + float64(nsec)/(60*60*1e9)`. -/
def Hours (d : Int) : ℚ :=
  let hour := Int.tdiv d Hour
  let nsec := Int.tmod d Hour
  f64Add (f64OfInt hour) (f64Div (f64OfInt nsec) 3600000000000)

/-! ## Calendar dates and `time.Time` -/

/-- The function `isLeap` of package `time`. -/
def isLeap (year : Int) : Bool :=
  year % 4 == 0 && (year % 100 != 0 || year % 400 == 0)

/-- The table `daysBefore` of package `time`: `daysBefore m` is the number of
days of a non-leap year that precede the month after month `m`. -/
def daysBefore : Nat → Int
  | 0 => 0
  | 1 => 31
  | 2 => 59
  | 3 => 90
  | 4 => 120
  | 5 => 151
  | 6 => 181
  | 7 => 212
  | 8 => 243
  | 9 => 273
  | 10 => 304
  | 11 => 334
  | _ => 365

/-- The function `daysIn` of package `time`. -/
def daysIn (m : Nat) (year : Int) : Int :=
  if m = 2 ∧ isLeap year = true then 29 else daysBefore m - daysBefore (m - 1)

/-- Days from 1970-01-01 to January 1 of `year` in the proleptic Gregorian
calendar (`daysSinceEpoch` of package `time`, moved to the Unix epoch). -/
def daysSinceEpoch (year : Int) : Int :=
  let y := year - 1
  365 * y + y / 4 - y / 100 + y / 400 - 719162

/-- The instant `time.Date(year, month, day, 0, 0, 0, 0, loc)` for a month in
`1..12`; as in Go the day may lie outside the month and is normalised by
counting on. -/
def Date (year : Int) (month : Nat) (day : Int) : Int :=
  (daysSinceEpoch year + daysBefore (month - 1)
    + (if isLeap year = true ∧ 3 ≤ month then 1 else 0) + (day - 1)) * Day

/-- A calendar date as `Time.Date` returns it. -/
structure Civil where
  year : Int
  month : Nat
  day : Int
deriving DecidableEq, Repr

/-- The value of a decimal digit. -/
def digitVal (c : Char) : Nat := c.toNat - 48

/-- Whether a character is one of `0` to `9` (`isDigit` of package `time`). -/
def isDigit (c : Char) : Bool := decide (48 ≤ c.toNat ∧ c.toNat ≤ 57)

/-- The call `time.ParseInLocation(time.DateOnly, value, loc)`, layout
`2006-01-02`: four year digits, a hyphen, two month digits, a hyphen, two day
digits and nothing else; the month must be in `1..12` and the day must exist in
that month.  The result is the parsed calendar date, `none` stands for every
parse error. -/
def ParseInLocation (value : String) : Option Civil :=
  match value.data with
  | [y1, y2, y3, y4, s1, m1, m2, s2, d1, d2] =>
    if isDigit y1 && isDigit y2 && isDigit y3 && isDigit y4 && s1 == '-'
        && isDigit m1 && isDigit m2 && s2 == '-' && isDigit d1 && isDigit d2 then
      let year : Int := ((digitVal y1 * 1000 + digitVal y2 * 100 + digitVal y3 * 10
        + digitVal y4 : Nat) : Int)
      let month : Nat := digitVal m1 * 10 + digitVal m2
      let day : Int := ((digitVal d1 * 10 + digitVal d2 : Nat) : Int)
      if month ≤ 0 ∨ 12 < month then none
      else if day < 1 ∨ day > daysIn month year then none
      else some ⟨year, month, day⟩
    else none
  | _ => none

/-- The instant of a parsed date: local midnight at its start. -/
def Civil.toTime (c : Civil) : Int := Date c.year c.month c.day

/-- The call `t.AddDate(0, 0, 1)` on a parsed date:
`Date(year, month, day + 1, 0, 0, 0, 0, loc)`. -/
def AddDate (c : Civil) : Int := Date c.year c.month (c.day + 1)

/-- The method `Time.Sub`: the difference `t - u`, saturated to the range of
`time.Duration`. -/
def Sub (t u : Int) : Int :=
  let d := t - u
  if minDuration ≤ d ∧ d ≤ maxDuration then d
  else if t < u then minDuration
  else maxDuration

/-- The expression `int(t.Sub(now).Hours() / 24)` of `main`. -/
def dayCount (t now : Int) : Int := f64ToInt (f64Div (Hours (Sub t now)) 24)

/-! ## The evaluator loop of `main` -/

/-- What `main` does that can be observed: its log records and its calls of
`notification`. -/
inductive Step where
  | errNoManifest
  | errReadManifest (file : String)
  | errUnmarshalManifest (file : String)
  | errParseEventTime (title time : String)
  | warnExpired (title time : String)
  | infoEvent (title time : String) (day : Int)
  | notification (event : Event) (day : Int)
deriving DecidableEq, Repr

/-- The body of the loop of `main` for one event. -/
def evalEvent (now : Int) (e : Event) : List Step :=
  match ParseInLocation e.Time with
  | none => [Step.errParseEventTime e.Title e.Time]
  | some c =>
    let t := AddDate c
    if t < now then [Step.warnExpired e.Title e.Time]
    else
      let day := dayCount t now
      if day ≤ 7 then [Step.infoEvent e.Title e.Time day, Step.notification e day]
      else [Step.infoEvent e.Title e.Time day]

/-- How a run ends: exit status 0 at the end of `main`, status 1 through
`os.Exit(1)`, status 2 when the Go runtime stops on a panic. -/
inductive Exit where
  | ok
  | fatal
  | panicked
deriving DecidableEq, Repr

/-- The exit status of the process. -/
def Exit.code : Exit → Nat
  | Exit.ok => 0
  | Exit.fatal => 1
  | Exit.panicked => 2

/-- The loop `for _, e := range m.Events`.  Reading `e.Time` through a nil
pointer panics, which ends the run on the spot. -/
def evalLoop (now : Int) : List (Option Event) → List Step × Exit
  | [] => ([], Exit.ok)
  | none :: _ => ([], Exit.panicked)
  | some e :: rest =>
    let r := evalLoop now rest
    (evalEvent now e ++ r.1, r.2)

/-- What `main` reads from its surroundings. -/
structure World where
  Args : List String
  ReadFile : String → Option String
  Unmarshal : String → Option Manifest
  Now : Int

/-- The function `main`. -/
def main (w : World) : List Step × Exit :=
  match w.Args with
  | _ :: file :: _ =>
    match w.ReadFile file with
    | none => ([Step.errReadManifest file], Exit.fatal)
    | some b =>
      match w.Unmarshal b with
      | none => ([Step.errUnmarshalManifest file], Exit.fatal)
      | some m => evalLoop w.Now m.Events
  | _ => ([Step.errNoManifest], Exit.fatal)

/-! ## `notification` -/

/-- A parsed `text/template`: literal text, and actions that print a field of
the data. -/
inductive Node where
  | text (s : String)
  | field (name : String)
deriving DecidableEq, Repr

/-- Where the template lexer is: in literal text or inside an action. -/
inductive Mode where
  | text
  | action
deriving DecidableEq, Repr

/-- The node of an action: only the field reference `.Name` is supported. -/
def actionNode : List Char → Option Node
  | '.' :: name => some (Node.field (String.mk name))
  | _ => none

/-- The template parser for the fragment of the template language `main.go`
uses: literal text and `.Field` actions between double braces.  The second
argument collects the characters of the current piece in reverse. -/
def parseTemplate : Mode → List Char → List Char → Option (List Node)
  | Mode.text, acc, '{' :: '{' :: rest =>
    (parseTemplate Mode.action [] rest).map fun ns => Node.text (String.mk acc.reverse) :: ns
  | Mode.text, acc, c :: rest => parseTemplate Mode.text (c :: acc) rest
  | Mode.text, acc, [] => some [Node.text (String.mk acc.reverse)]
  | Mode.action, acc, '}' :: '}' :: rest =>
    match actionNode acc.reverse with
    | none => none
    | some n => (parseTemplate Mode.text [] rest).map fun ns => n :: ns
  | Mode.action, acc, c :: rest => parseTemplate Mode.action (c :: acc) rest
  | Mode.action, _, [] => none

/-- The source text of the template `t` of `main.go`. -/
def templateSource : String :=
  "From: \x7b\x7b.From\x7d\x7d\r\nTo: \x7b\x7b.To\x7d\x7d\r\nSubject: \x7b\x7b.Subject\x7d\x7d\r\nContent-Type: \x7b\x7b.ContentType\x7d\x7d\r\n\r\n\x7b\x7b.Body\x7d\x7d"

/-- The package variable `t`: the parsed template (`none` is the parse error
on which `template.Must` panics). -/
def t : Option (List Node) := parseTemplate Mode.text [] templateSource.data

/-- The local struct `Data` of `notification`. -/
structure Data where
  From : String
  To : String
  Subject : String
  ContentType : String
  Body : String
  Event : Event
deriving DecidableEq, Repr

/-- The string fields of `Data` by name. -/
def Data.field (d : Data) (name : String) : Option String :=
  if name = "From" then some d.From
  else if name = "To" then some d.To
  else if name = "Subject" then some d.Subject
  else if name = "ContentType" then some d.ContentType
  else if name = "Body" then some d.Body
  else none

/-- Template execution: the nodes are written out in order; a reference to a
field the data lacks is an execution error. -/
def Execute : List Node → Data → Option String
  | [], _ => some ""
  | Node.text s :: rest, d => (Execute rest d).map fun out => s ++ out
  | Node.field name :: rest, d =>
    match d.field name with
    | none => none
    | some v => (Execute rest d).map fun out => v ++ out

/-- The package variables `addr`, `user` and `pass`, read from the
environment when the program starts. -/
structure Config where
  addr : String
  user : String
  pass : String
deriving DecidableEq, Repr

/-- The value `smtp.PlainAuth(identity, username, password, host)`. -/
structure PlainAuth where
  identity : String
  username : String
  password : String
  host : String
deriving DecidableEq, Repr

/-- The library calls of `notification`: `net.SplitHostPort` (host and port, or
`none` on error), `mime.BEncoding.Encode` (charset, text) and `smtp.SendMail`
(`true` when it returns no error). -/
structure Services where
  SplitHostPort : String → Option (String × String)
  Encode : String → String → String
  SendMail : String → PlainAuth → String → List String → String → Bool

/-- What `notification` does that can be observed: its log records, the
rendering of the template into the buffer, and the call of `smtp.SendMail`. -/
inductive Effect where
  | warnSkip
  | infoSending
  | errFail
  | render (msg : String)
  | sendMail (addr : String) (auth : PlainAuth) (sender : String) (rcpt : List String)
      (msg : String)
  | infoSuccess
deriving DecidableEq, Repr

/-- The text `body` that `notification` builds from the event and the day count:
`fmt.Sprintf` with `%s` for the title and `%d` for the day. -/
def body (event : Event) (day : Int) : String :=
  if day > 0 then "" ++ ("距离「" ++ event.Title ++ "」还有" ++ toString day ++ "天\n\n")
  else "" ++ ("今天「" ++ event.Title ++ "」\n\n")

/-- The value `data` that `notification` hands to the template. -/
def mkData (cfg : Config) (sv : Services) (event : Event) (day : Int) : Data :=
  let subject := "事件提醒"
  { From := sv.Encode "UTF-8" "Monitor" ++ " <" ++ cfg.user ++ ">"
    To := cfg.user
    Subject := sv.Encode "UTF-8" ("「RED」" ++ subject)
    ContentType := "text/plain; charset=utf-8"
    Body := body event day
    Event := event }

/-- The bytes that `t.Execute(&buf, data)` writes into the buffer, `none` when
the execution fails. -/
def message (cfg : Config) (sv : Services) (event : Event) (day : Int) : Option String :=
  t.bind fun nodes => Execute nodes (mkData cfg sv event day)

/-- The function `notification`. -/
def notification (cfg : Config) (sv : Services) (event : Event) (day : Int) : List Effect :=
  if cfg.addr = "" then [Effect.warnSkip]
  else
    match sv.SplitHostPort cfg.addr with
    | none => [Effect.infoSending, Effect.errFail]
    | some hp =>
      match message cfg sv event day with
      | none => [Effect.infoSending, Effect.errFail]
      | some buf =>
        let auth : PlainAuth := ⟨"", cfg.user, cfg.pass, hp.1⟩
        if sv.SendMail cfg.addr auth cfg.user [cfg.user] buf = true then
          [Effect.infoSending, Effect.render buf,
            Effect.sendMail cfg.addr auth cfg.user [cfg.user] buf, Effect.infoSuccess]
        else
          [Effect.infoSending, Effect.render buf,
            Effect.sendMail cfg.addr auth cfg.user [cfg.user] buf, Effect.errFail]

/-- The effects of the calls of `notification` that a run of `main` makes, in
order. -/
def mailEffects (cfg : Config) (sv : Services) : List Step → List Effect
  | [] => []
  | Step.notification e day :: rest => notification cfg sv e day ++ mailEffects cfg sv rest
  | _ :: rest => mailEffects cfg sv rest

/-- The calls of `notification` among the steps of a run: the forwarded
events with their day counts, in order. -/
def forwarded : List Step → List (Event × Int)
  | [] => []
  | Step.notification e day :: rest => (e, day) :: forwarded rest
  | _ :: rest => forwarded rest

/-- The log records by which the evaluator reports its verdict on an event
whose date parsed: expired, or alive with its day count. -/
def isClassification : Step → Bool
  | Step.warnExpired _ _ => true
  | Step.infoEvent _ _ _ => true
  | _ => false

/-- The steps of the evaluator loop over a list of events. -/
def steps (now : Int) (es : List Event) : List Step := (evalLoop now (es.map some)).1

/-- The world of the failing run of C4: the manifest file holds
`\x7b"events":[null]\x7d`, which decodes to one nil entry. -/
def nullWorld : World where
  Args := ["reminder", "manifest.json"]
  ReadFile := fun file => if file = "manifest.json" then some "\x7b\"events\":[null]\x7d" else none
  Unmarshal := fun b => if b = "\x7b\"events\":[null]\x7d" then some ⟨[none]⟩ else none
  Now := Date 2025 5 28

/-- The text of the manifest of the failing run of C3: an event, a null entry,
another event. -/
def gapManifest : String :=
  "\x7b\"events\":[\x7b\"title\":\"trip\",\"time\":\"2025-06-01\"\x7d,null,\x7b\"title\":\"visit\",\"time\":\"2025-06-02\"\x7d]\x7d"

/-- The world of the failing run of C3, at 2025-05-28 00:00: the manifest
decodes to an event, a nil entry and another event. -/
def gapWorld : World where
  Args := ["reminder", "manifest.json"]
  ReadFile := fun file => if file = "manifest.json" then some gapManifest else none
  Unmarshal := fun b =>
    if b = gapManifest then
      some ⟨[some (Event.mk "trip" "2025-06-01"), none, some (Event.mk "visit" "2025-06-02")]⟩
    else none
  Now := Date 2025 5 28

/-- A configuration with a relay, for the example runs. -/
def demoConfig : Config := ⟨"mail.example.com:587", "me@example.com", "secret"⟩

/-- Services for the example runs: the address splits into host and port, the
encoder leaves its text as it is, and the relay accepts every message. -/
def demoServices : Services where
  SplitHostPort := fun _ => some ("mail.example.com", "587")
  Encode := fun _ s => s
  SendMail := fun _ _ _ _ _ => true

/-- A configuration without relay address (`REMINDER_SMTP_ADDR` empty). -/
def dryRunConfig : Config := ⟨"", "me@example.com", "secret"⟩

/-- The text of the manifest of the failing run of C8: one event, then a null
entry. -/
def dryRunManifest : String :=
  "\x7b\"events\":[\x7b\"title\":\"trip\",\"time\":\"2025-06-01\"\x7d,null]\x7d"

/-- The world of the failing run of C8, at 2025-05-28 00:00: the manifest
decodes to one event due in five days and one nil entry. -/
def dryRunWorld : World where
  Args := ["reminder", "manifest.json"]
  ReadFile := fun file => if file = "manifest.json" then some dryRunManifest else none
  Unmarshal := fun b =>
    if b = dryRunManifest then some ⟨[some (Event.mk "trip" "2025-06-01"), none]⟩ else none
  Now := Date 2025 5 28

/-! ## The evaluator: one event -/

theorem forwarded_append (a b : List Step) : forwarded (a ++ b) = forwarded a ++ forwarded b := by
  induction a with
  | nil => rfl
  | cons s a ih => cases s <;> simp [forwarded, ih]

theorem evalEvent_of_parse_error (now : Int) (e : Event) (h : ParseInLocation e.Time = none) :
    evalEvent now e = [Step.errParseEventTime e.Title e.Time] := by
  simp [evalEvent, h]

theorem evalEvent_of_expired (now : Int) (e : Event) (c : Civil)
    (h : ParseInLocation e.Time = some c) (hlt : AddDate c < now) :
    evalEvent now e = [Step.warnExpired e.Title e.Time] := by
  simp [evalEvent, h, hlt]

theorem evalEvent_of_alive (now : Int) (e : Event) (c : Civil)
    (h : ParseInLocation e.Time = some c) (hge : ¬ AddDate c < now) :
    evalEvent now e =
      if dayCount (AddDate c) now ≤ 7 then
        [Step.infoEvent e.Title e.Time (dayCount (AddDate c) now),
          Step.notification e (dayCount (AddDate c) now)]
      else [Step.infoEvent e.Title e.Time (dayCount (AddDate c) now)] := by
  simp [evalEvent, h, hge]

/-- C1: an event whose date parses and that is not expired is handed to
`notification`, with its day count, exactly when that day count is at most 7;
with a larger day count nothing is forwarded. -/
theorem C1_forwarded_iff_day_le_seven (now : Int) (e : Event) (c : Civil)
    (hparse : ParseInLocation e.Time = some c) (halive : ¬ AddDate c < now) :
    (Step.notification e (dayCount (AddDate c) now) ∈ evalEvent now e
        ↔ dayCount (AddDate c) now ≤ 7)
      ∧ (dayCount (AddDate c) now ≤ 7 →
          forwarded (evalEvent now e) = [(e, dayCount (AddDate c) now)])
      ∧ (7 < dayCount (AddDate c) now → forwarded (evalEvent now e) = []) := by
  rw [evalEvent_of_alive now e c hparse halive]
  by_cases h : dayCount (AddDate c) now ≤ 7
  · simp [h, forwarded]
  · have h7 : 7 < dayCount (AddDate c) now := by omega
    simp [h, forwarded]

theorem C1_witness :
    ParseInLocation (Event.mk "trip" "2025-06-01").Time = some ⟨2025, 6, 1⟩
      ∧ ¬ AddDate ⟨2025, 6, 1⟩ < Date 2025 5 28
      ∧ dayCount (AddDate ⟨2025, 6, 1⟩) (Date 2025 5 28) ≤ 7
      ∧ forwarded (evalEvent (Date 2025 5 28) (Event.mk "trip" "2025-06-01"))
          = [(Event.mk "trip" "2025-06-01", dayCount (AddDate ⟨2025, 6, 1⟩) (Date 2025 5 28))] :=
  ⟨by decide, by decide, by decide!,
    (C1_forwarded_iff_day_le_seven (Date 2025 5 28) (Event.mk "trip" "2025-06-01") ⟨2025, 6, 1⟩
      (by decide) (by decide)).2.1 (by decide!)⟩

/-- C2: when the deadline (the parsed date plus one day) is strictly before
`now` the event is logged as expired and nothing is forwarded; when the deadline
equals `now` or lies after it the event is not logged as expired. -/
theorem C2_expired_iff_deadline_before_now (now : Int) (e : Event) (c : Civil)
    (hparse : ParseInLocation e.Time = some c) :
    (AddDate c < now →
        evalEvent now e = [Step.warnExpired e.Title e.Time] ∧ forwarded (evalEvent now e) = [])
      ∧ (now ≤ AddDate c → Step.warnExpired e.Title e.Time ∉ evalEvent now e) := by
  constructor
  · intro h
    rw [evalEvent_of_expired now e c hparse h]
    exact ⟨rfl, rfl⟩
  · intro h
    rw [evalEvent_of_alive now e c hparse (by omega)]
    split <;> simp

theorem C2_witness :
    ParseInLocation (Event.mk "fair" "2025-05-26").Time = some ⟨2025, 5, 26⟩
      ∧ AddDate ⟨2025, 5, 26⟩ < Date 2025 5 28
      ∧ evalEvent (Date 2025 5 28) (Event.mk "fair" "2025-05-26")
          = [Step.warnExpired "fair" "2025-05-26"]
      ∧ forwarded (evalEvent (Date 2025 5 28) (Event.mk "fair" "2025-05-26")) = [] :=
  ⟨by decide, by decide,
    (C2_expired_iff_deadline_before_now (Date 2025 5 28) (Event.mk "fair" "2025-05-26")
      ⟨2025, 5, 26⟩ (by decide)).1 (by decide)⟩

/-! ## The evaluator: the loop -/

theorem evalLoop_map_some (now : Int) (es : List Event) :
    evalLoop now (es.map some) = ((es.map (evalEvent now)).flatten, Exit.ok) := by
  induction es with
  | nil => rfl
  | cons e es ih => simp [evalLoop, ih]

theorem steps_eq (now : Int) (es : List Event) :
    steps now es = (es.map (evalEvent now)).flatten := by
  simp [steps, evalLoop_map_some]

theorem steps_append (now : Int) (es1 es2 : List Event) :
    steps now (es1 ++ es2) = steps now es1 ++ steps now es2 := by
  simp [steps_eq]

theorem steps_cons (now : Int) (e : Event) (es : List Event) :
    steps now (e :: es) = evalEvent now e ++ steps now es := by
  simp [steps_eq]

theorem forwarded_steps (now : Int) (es : List Event) :
    forwarded (steps now es) = (es.map fun e => forwarded (evalEvent now e)).flatten := by
  induction es with
  | nil => rfl
  | cons e es ih => simp [steps_cons, forwarded_append, ih]

theorem countP_classification_evalEvent (now : Int) (e : Event)
    (h : ParseInLocation e.Time ≠ none) :
    (evalEvent now e).countP isClassification = 1 := by
  obtain ⟨c, hc⟩ := Option.ne_none_iff_exists'.mp h
  by_cases hlt : AddDate c < now
  · rw [evalEvent_of_expired now e c hc hlt]; rfl
  · rw [evalEvent_of_alive now e c hc hlt]
    split <;> rfl

theorem countP_classification_steps (now : Int) (es : List Event)
    (h : ∀ e ∈ es, ParseInLocation e.Time ≠ none) :
    (steps now es).countP isClassification = es.length := by
  induction es with
  | nil => rfl
  | cons e es ih =>
    rw [steps_cons, List.countP_append, countP_classification_evalEvent now e
      (h e (List.mem_cons_self _ _)), ih (fun x hx => h x (List.mem_cons_of_mem _ hx))]
    simp [Nat.add_comm]

/-- Over a list of events the loop treats the events one by one and in order.
Its steps are the concatenation of the steps of the single events against the
same `now`, and so are the forwarded (event, day) pairs.  When every date parses
each of the N events gets exactly one classification (expired, or alive with a
day count).  An event with a malformed date only adds its own error record: the
steps of all other events, before and after it, are the ones of the manifest
without it, and the forwarded pairs are the same. -/
theorem loop_over_events (now : Int) (es es1 es2 : List Event) (bad : Event)
    (hbad : ParseInLocation bad.Time = none) :
    evalLoop now (es.map some) = ((es.map (evalEvent now)).flatten, Exit.ok)
      ∧ forwarded (steps now es) = (es.map fun e => forwarded (evalEvent now e)).flatten
      ∧ ((∀ e ∈ es, ParseInLocation e.Time ≠ none) →
          (steps now es).countP isClassification = es.length)
      ∧ steps now (es1 ++ bad :: es2)
          = steps now es1 ++ [Step.errParseEventTime bad.Title bad.Time] ++ steps now es2
      ∧ steps now (es1 ++ es2) = steps now es1 ++ steps now es2
      ∧ forwarded (steps now (es1 ++ bad :: es2)) = forwarded (steps now (es1 ++ es2))
      ∧ ParseInLocation "2025-13-40" = none := by
  refine ⟨evalLoop_map_some now es, forwarded_steps now es,
    countP_classification_steps now es, ?_, steps_append now es1 es2, ?_, by decide⟩
  · rw [steps_append, steps_cons, evalEvent_of_parse_error now bad hbad]
    simp
  · rw [steps_append, steps_cons, evalEvent_of_parse_error now bad hbad, steps_append]
    simp [forwarded_append, forwarded]

/-- C3, the failing run: the manifest holds the event `trip`, a null entry and
the event `visit`, and decodes.  Taken alone, at now = 2025-05-28 00:00, `trip`
is forwarded with day 5 and `visit` with day 6, so the in-order concatenation of
the individual outcomes is both pairs.  The run forwards `trip` only: reading
`e.Time` through the nil entry panics, the loop never reaches `visit`, and the
run ends with exit status 2. -/
theorem C3_null_entry_cuts_the_loop :
    forwarded (main gapWorld).1 = [(Event.mk "trip" "2025-06-01", 5)]
      ∧ forwarded (evalEvent (Date 2025 5 28) (Event.mk "trip" "2025-06-01"))
          ++ forwarded (evalEvent (Date 2025 5 28) (Event.mk "visit" "2025-06-02"))
        = [(Event.mk "trip" "2025-06-01", 5), (Event.mk "visit" "2025-06-02", 6)]
      ∧ (main gapWorld).1
        = [Step.infoEvent "trip" "2025-06-01" 5,
            Step.notification (Event.mk "trip" "2025-06-01") 5]
      ∧ (main gapWorld).2 = Exit.panicked := by
  decide!

/-! ## `main` -/

theorem main_fatal_no_manifest (w : World) (h : w.Args.length < 2) :
    main w = ([Step.errNoManifest], Exit.fatal) := by
  unfold main
  match hA : w.Args with
  | [] => rfl
  | [_] => rfl
  | _ :: _ :: _ => rw [hA] at h; simp at h; omega

theorem main_fatal_unreadable (w : World) (prog file : String) (rest : List String)
    (hA : w.Args = prog :: file :: rest) (hR : w.ReadFile file = none) :
    main w = ([Step.errReadManifest file], Exit.fatal) := by
  simp [main, hA, hR]

theorem main_fatal_undecodable (w : World) (prog file b : String) (rest : List String)
    (hA : w.Args = prog :: file :: rest) (hR : w.ReadFile file = some b)
    (hU : w.Unmarshal b = none) :
    main w = ([Step.errUnmarshalManifest file], Exit.fatal) := by
  simp [main, hA, hR, hU]

theorem main_of_decoded (w : World) (prog file b : String) (rest : List String) (m : Manifest)
    (hA : w.Args = prog :: file :: rest) (hR : w.ReadFile file = some b)
    (hU : w.Unmarshal b = some m) :
    main w = evalLoop w.Now m.Events := by
  simp [main, hA, hR, hU]

theorem evalLoop_exit_ne_fatal (now : Int) (l : List (Option Event)) :
    (evalLoop now l).2 ≠ Exit.fatal := by
  induction l with
  | nil => simp [evalLoop]
  | cons a l ih => cases a <;> simp [evalLoop, ih]

theorem evalLoop_append_none (now : Int) (es : List Event) (rest : List (Option Event)) :
    evalLoop now (es.map some ++ none :: rest) = (steps now es, Exit.panicked) := by
  induction es with
  | nil => rfl
  | cons e es ih => simp [evalLoop, ih, steps_cons]

/-- The exit status of `main` is 1 exactly in the three fatal cases. -/
theorem main_exit_fatal_iff (w : World) :
    (main w).2 = Exit.fatal ↔
      (w.Args.length < 2
        ∨ ∃ prog file rest, w.Args = prog :: file :: rest
            ∧ (w.ReadFile file = none
              ∨ ∃ b, w.ReadFile file = some b ∧ w.Unmarshal b = none)) := by
  match hA : w.Args with
  | [] => simp [main_fatal_no_manifest w (by simp [hA])]
  | [_] => simp [main_fatal_no_manifest w (by simp [hA])]
  | prog :: file :: rest =>
    match hR : w.ReadFile file with
    | none =>
      rw [main_fatal_unreadable w prog file rest hA hR]
      exact ⟨fun _ => Or.inr ⟨prog, file, rest, rfl, Or.inl hR⟩, fun _ => rfl⟩
    | some b =>
      match hU : w.Unmarshal b with
      | none =>
        rw [main_fatal_undecodable w prog file b rest hA hR hU]
        exact ⟨fun _ => Or.inr ⟨prog, file, rest, rfl, Or.inr ⟨b, hR, hU⟩⟩, fun _ => rfl⟩
      | some m =>
        rw [main_of_decoded w prog file b rest m hA hR hU]
        constructor
        · intro h
          exact absurd h (evalLoop_exit_ne_fatal _ _)
        · rintro (h | ⟨p, f, r, hEq, h⟩)
          · exfalso; simp at h; omega
          · simp only [List.cons.injEq] at hEq
            obtain ⟨-, rfl, -⟩ := hEq
            rcases h with h | ⟨b2, h1, h2⟩
            · rw [hR] at h; cases h
            · rw [hR] at h1; cases h1; rw [hU] at h2; cases h2

/-- A manifest without null entries is processed to the end with status 0. -/
theorem main_ok_of_no_null (w : World) (prog file b : String) (rest : List String)
    (es : List Event) (hA : w.Args = prog :: file :: rest) (hR : w.ReadFile file = some b)
    (hU : w.Unmarshal b = some ⟨es.map some⟩) :
    main w = (steps w.Now es, Exit.ok) := by
  rw [main_of_decoded w prog file b rest _ hA hR hU, evalLoop_map_some, steps_eq]

/-- C4, the failing run: the manifest `\x7b"events":[null]\x7d` decodes, and the
loop then reads `e.Time` through the nil pointer; the run stops on the panic
with exit status 2, not 0. -/
theorem C4_null_entry_panics :
    main nullWorld = ([], Exit.panicked) ∧ (main nullWorld).2.code = 2 := by
  decide

/-! ## `notification` -/

theorem body_of_pos (event : Event) (day : Int) (h : day > 0) :
    body event day = "距离「" ++ event.Title ++ "」还有" ++ toString day ++ "天\n\n" := by
  simp [body, h]

theorem body_of_nonpos (event : Event) (day : Int) (h : day ≤ 0) :
    body event day = "今天「" ++ event.Title ++ "」\n\n" := by
  have h0 : ¬ day > 0 := by omega
  simp [body, h0]

theorem body_five (event : Event) :
    body event 5 = "距离「" ++ event.Title ++ "」还有5天\n\n" := by
  rw [body_of_pos event 5 (by decide)]
  have h : "」还有" ++ toString (5 : Int) ++ "天\n\n" = "」还有5天\n\n" := by decide
  rw [← h]
  simp only [String.append_assoc]

/-- C5: the body depends on the sign of the day count.  For a positive day it
is the "days remain" sentence with the title and the decimal day number, for
day zero or a negative day it is the "today" sentence with the title and no
number; both end in two newlines. -/
theorem C5_body_by_sign_of_day (event : Event) (day : Int) :
    (day > 0 → body event day = "距离「" ++ event.Title ++ "」还有" ++ toString day ++ "天\n\n")
      ∧ (day ≤ 0 → body event day = "今天「" ++ event.Title ++ "」\n\n") :=
  ⟨body_of_pos event day, body_of_nonpos event day⟩

theorem C5_witness :
    body (Event.mk "生日" "2025-06-01") 5 = "距离「生日」还有5天\n\n"
      ∧ body (Event.mk "生日" "2025-06-01") 0 = "今天「生日」\n\n" :=
  ⟨(C5_body_by_sign_of_day (Event.mk "生日" "2025-06-01") 5).1 (by decide),
    (C5_body_by_sign_of_day (Event.mk "生日" "2025-06-01") 0).2 (by decide)⟩

theorem t_eq :
    t = some [Node.text "From: ", Node.field "From", Node.text "\r\nTo: ", Node.field "To",
      Node.text "\r\nSubject: ", Node.field "Subject", Node.text "\r\nContent-Type: ",
      Node.field "ContentType", Node.text "\r\n\r\n", Node.field "Body", Node.text ""] := by
  decide

theorem notification_addr_empty (cfg : Config) (sv : Services) (event : Event) (day : Int)
    (h : cfg.addr = "") : notification cfg sv event day = [Effect.warnSkip] := by
  simp [notification, h]

theorem render_mem_notification (cfg : Config) (sv : Services) (event : Event) (day : Int)
    (msg : String) (h : Effect.render msg ∈ notification cfg sv event day) :
    message cfg sv event day = some msg := by
  unfold notification at h
  split at h
  · simp at h
  · split at h
    · simp at h
    · split at h
      · simp at h
      · rename_i buf hbuf
        dsimp only at h
        split at h <;> simp at h <;> rw [hbuf, h]

theorem sendMail_mem_notification (cfg : Config) (sv : Services) (event : Event) (day : Int)
    (a : String) (au : PlainAuth) (sender : String) (rcpt : List String) (msg : String)
    (h : Effect.sendMail a au sender rcpt msg ∈ notification cfg sv event day) :
    message cfg sv event day = some msg ∧ sender = cfg.user ∧ rcpt = [cfg.user] := by
  unfold notification at h
  split at h
  · simp at h
  · split at h
    · simp at h
    · split at h
      · simp at h
      · rename_i buf hbuf
        dsimp only at h
        split at h <;> simp at h <;> rw [hbuf] <;> simp [h]

/-- C9: the rendered message is the four header lines From, To, Subject and
Content-Type in this order, each closed by CRLF, then an empty line, then the
body.  From carries the configured mailbox after the display name, To is the
configured mailbox, the Subject is the encoding of one fixed text whatever the
event and the day, and the event enters only through the body, after the empty
line.  Every message that `notification` renders is this one, and it is the
one submitted, from the configured mailbox to the configured mailbox. -/
theorem C9_message_layout (cfg : Config) (sv : Services) (event : Event) (day : Int) :
    message cfg sv event day =
        some ("From: " ++ (sv.Encode "UTF-8" "Monitor" ++ " <" ++ cfg.user ++ ">") ++ "\r\n"
          ++ ("To: " ++ cfg.user ++ "\r\n")
          ++ ("Subject: " ++ sv.Encode "UTF-8" "「RED」事件提醒" ++ "\r\n")
          ++ ("Content-Type: " ++ "text/plain; charset=utf-8" ++ "\r\n")
          ++ "\r\n"
          ++ body event day)
      ∧ (∀ msg, Effect.render msg ∈ notification cfg sv event day →
          message cfg sv event day = some msg)
      ∧ (∀ a au sender rcpt msg,
          Effect.sendMail a au sender rcpt msg ∈ notification cfg sv event day →
            message cfg sv event day = some msg ∧ sender = cfg.user ∧ rcpt = [cfg.user]) := by
  refine ⟨?_, fun msg h => render_mem_notification cfg sv event day msg h,
    fun a au sender rcpt msg h => sendMail_mem_notification cfg sv event day a au sender rcpt msg h⟩
  simp only [message, t_eq, Option.some_bind, Execute, Data.field, mkData, Option.map_some',
    String.append_assoc, if_true, if_false]
  simp only [String.reduceEq, if_true, if_false, String.append_assoc, Option.map_some']
  have hs : "「RED」" ++ "事件提醒" = "「RED」事件提醒" := by decide
  rw [hs, String.append_empty, String.append_empty]
  rfl

theorem C9_witness :
    Effect.render
          "From: Monitor <me@example.com>\r\nTo: me@example.com\r\nSubject: 「RED」事件提醒\r\nContent-Type: text/plain; charset=utf-8\r\n\r\n距离「生日」还有5天\n\n"
        ∈ notification demoConfig demoServices (Event.mk "生日" "2025-06-01") 5
      ∧ message demoConfig demoServices (Event.mk "生日" "2025-06-01") 5
        = some
          "From: Monitor <me@example.com>\r\nTo: me@example.com\r\nSubject: 「RED」事件提醒\r\nContent-Type: text/plain; charset=utf-8\r\n\r\n距离「生日」还有5天\n\n" :=
  ⟨by decide,
    (C9_message_layout demoConfig demoServices (Event.mk "生日" "2025-06-01") 5).2.1 _
      (by decide)⟩

/-- C8, the failing run: the relay address is empty and the manifest
`\x7b"events":[\x7b"title":"trip","time":"2025-06-01"\x7d,null]\x7d` decodes.  The
first event is forwarded and `notification` only logs the skip, but the second
entry is a nil pointer: reading `e.Time` panics and the run ends with exit
status 2, so it does not complete without error. -/
theorem C8_empty_addr_run_panics :
    main dryRunWorld
        = ([Step.infoEvent "trip" "2025-06-01" 5,
            Step.notification (Event.mk "trip" "2025-06-01") 5], Exit.panicked)
      ∧ mailEffects dryRunConfig demoServices (main dryRunWorld).1 = [Effect.warnSkip]
      ∧ (main dryRunWorld).2.code = 2 := by
  decide!

/-! ## Binary exponent -/

theorem log2Aux_spec (fuel n : Nat) (h1 : 1 ≤ n) (hf : n ≤ fuel) :
    2 ^ log2Aux fuel n ≤ n ∧ n < 2 ^ (log2Aux fuel n + 1) := by
  induction fuel generalizing n with
  | zero => omega
  | succ fuel ih =>
    unfold log2Aux
    split
    · have h : n = 1 := by omega
      subst h
      simp
    · obtain ⟨ih1, ih2⟩ := ih (n / 2) (by omega) (by omega)
      simp only [pow_succ] at ih2 ⊢
      generalize 2 ^ log2Aux fuel (n / 2) = p at ih1 ih2 ⊢
      omega

theorem ilog2_spec (n : Nat) (h1 : 1 ≤ n) : 2 ^ ilog2 n ≤ n ∧ n < 2 ^ (ilog2 n + 1) :=
  log2Aux_spec n n h1 (Nat.le_refl n)

theorem abs_eq_natAbs_div_den (q : ℚ) : |q| = (q.num.natAbs : ℚ) / (q.den : ℚ) := by
  conv_lhs => rw [← Rat.num_div_den q]
  rw [abs_div, Nat.cast_natAbs, Int.cast_abs, Nat.abs_cast]

theorem two_zpow_pos (e : ℤ) : (0 : ℚ) < 2 ^ e := zpow_pos (by norm_num) e

theorem binExp_spec (q : ℚ) (hq : q ≠ 0) :
    (2 : ℚ) ^ binExp q ≤ |q| ∧ |q| < 2 ^ (binExp q + 1) := by
  have hn : 1 ≤ q.num.natAbs := by
    have : q.num ≠ 0 := Rat.num_ne_zero.mpr hq
    omega
  have hd : 1 ≤ q.den := q.den_pos
  obtain ⟨a1, a2⟩ := ilog2_spec _ hn
  obtain ⟨b1, b2⟩ := ilog2_spec _ hd
  have hdpos : (0 : ℚ) < q.den := by exact_mod_cast hd
  have A1 : (2 : ℚ) ^ (ilog2 q.num.natAbs) ≤ q.num.natAbs := by exact_mod_cast a1
  have A2 : (q.num.natAbs : ℚ) < 2 ^ (ilog2 q.num.natAbs + 1) := by exact_mod_cast a2
  have B1 : (2 : ℚ) ^ (ilog2 q.den) ≤ q.den := by exact_mod_cast b1
  have B2 : (q.den : ℚ) < 2 ^ (ilog2 q.den + 1) := by exact_mod_cast b2
  have habs := abs_eq_natAbs_div_den q
  have hpa : (0 : ℚ) < 2 ^ (ilog2 q.num.natAbs) := by positivity
  have hpb : (0 : ℚ) < 2 ^ (ilog2 q.den) := by positivity
  have e0 : (2 : ℚ) ^ ((ilog2 q.num.natAbs : ℤ) - (ilog2 q.den : ℤ))
      = 2 ^ (ilog2 q.num.natAbs) / 2 ^ (ilog2 q.den) := by
    rw [zpow_sub₀ (by norm_num), zpow_natCast, zpow_natCast]
  have hup : |q| < 2 ^ ((ilog2 q.num.natAbs : ℤ) - (ilog2 q.den : ℤ) + 1) := by
    rw [zpow_add₀ (by norm_num), e0, zpow_one, habs, div_lt_iff₀ hdpos]
    calc (q.num.natAbs : ℚ) < 2 ^ (ilog2 q.num.natAbs + 1) := A2
      _ = 2 ^ (ilog2 q.num.natAbs) / 2 ^ (ilog2 q.den) * 2 * 2 ^ (ilog2 q.den) := by
          field_simp; ring
      _ ≤ 2 ^ (ilog2 q.num.natAbs) / 2 ^ (ilog2 q.den) * 2 * q.den := by
          apply mul_le_mul_of_nonneg_left B1; positivity
  have hlo : (2 : ℚ) ^ ((ilog2 q.num.natAbs : ℤ) - (ilog2 q.den : ℤ) - 1) ≤ |q| := by
    rw [zpow_sub₀ (by norm_num), e0, zpow_one, habs, le_div_iff₀ hdpos]
    calc (2 : ℚ) ^ (ilog2 q.num.natAbs) / 2 ^ (ilog2 q.den) / 2 * q.den
        ≤ 2 ^ (ilog2 q.num.natAbs) / 2 ^ (ilog2 q.den) / 2 * 2 ^ (ilog2 q.den + 1) := by
          apply mul_le_mul_of_nonneg_left (le_of_lt B2); positivity
      _ = 2 ^ (ilog2 q.num.natAbs) := by
          rw [pow_succ]; field_simp
      _ ≤ q.num.natAbs := A1
  unfold binExp
  simp only
  split
  · rename_i h
    exact ⟨h, hup⟩
  · rename_i h
    refine ⟨hlo, ?_⟩
    rw [sub_add_cancel]
    exact lt_of_not_le h

theorem binExp_unique (q : ℚ) (e : ℤ) (h1 : (2 : ℚ) ^ e ≤ |q|) (h2 : |q| < 2 ^ (e + 1)) :
    binExp q = e := by
  have hq : q ≠ 0 := by
    intro h
    rw [h, abs_zero] at h1
    exact absurd h1 (not_le.mpr (two_zpow_pos e))
  obtain ⟨s1, s2⟩ := binExp_spec q hq
  have c1 : e < binExp q + 1 :=
    (zpow_lt_zpow_iff_right₀ (by norm_num : (1 : ℚ) < 2)).mp (lt_of_le_of_lt h1 s2)
  have c2 : binExp q < e + 1 :=
    (zpow_lt_zpow_iff_right₀ (by norm_num : (1 : ℚ) < 2)).mp (lt_of_le_of_lt s1 h2)
  omega

/-! ## Rounding to the nearest integer -/

theorem roundHalfEven_le (m : ℚ) (N : ℤ) (h : m ≤ N) : roundHalfEven m ≤ N := by
  have hf1 : (⌊m⌋ : ℚ) ≤ m := Int.floor_le m
  have hfN : ⌊m⌋ ≤ N := by exact_mod_cast le_trans hf1 h
  have hstep : ¬ (m - ⌊m⌋ < 1 / 2) → ⌊m⌋ + 1 ≤ N := by
    intro hr
    have : (⌊m⌋ : ℚ) < N := by linarith
    have : ⌊m⌋ < N := by exact_mod_cast this
    omega
  unfold roundHalfEven
  simp only
  split
  · exact hfN
  · rename_i hr
    split
    · exact hstep hr
    · split
      · exact hfN
      · exact hstep hr

theorem le_roundHalfEven (m : ℚ) (N : ℤ) (h : (N : ℚ) ≤ m) : N ≤ roundHalfEven m := by
  have hfN : N ≤ ⌊m⌋ := Int.le_floor.mpr h
  unfold roundHalfEven
  simp only
  split
  · exact hfN
  · split
    · omega
    · split
      · exact hfN
      · omega

theorem roundHalfEven_le_of_lt_half (m : ℚ) (N : ℤ) (h : m < N + 1 / 2) :
    roundHalfEven m ≤ N := by
  have hf1 : (⌊m⌋ : ℚ) ≤ m := Int.floor_le m
  have hfN : ⌊m⌋ ≤ N := by
    have : (⌊m⌋ : ℚ) < N + 1 := by linarith
    have : ⌊m⌋ < N + 1 := by exact_mod_cast this
    omega
  have hstep : ¬ (m - ⌊m⌋ < 1 / 2) → ⌊m⌋ + 1 ≤ N := by
    intro hr
    have : (⌊m⌋ : ℚ) < N := by linarith
    have : ⌊m⌋ < N := by exact_mod_cast this
    omega
  unfold roundHalfEven
  simp only
  split
  · exact hfN
  · rename_i hr
    split
    · exact hstep hr
    · split
      · exact hfN
      · exact hstep hr

/-! ## Rounding to `float64` -/

theorem f64Round_zero : f64Round 0 = 0 := by
  simp [f64Round]

theorem f64Round_eq (x : ℚ) (hx : x ≠ 0) :
    f64Round x = roundHalfEven (x / 2 ^ (binExp x - 52)) * 2 ^ (binExp x - 52) := by
  simp [f64Round, hx]

theorem f64Round_le_grid (x : ℚ) (hx : x ≠ 0) (M : ℤ)
    (h : x ≤ M * 2 ^ (binExp x - 52)) : f64Round x ≤ M * 2 ^ (binExp x - 52) := by
  have hu := two_zpow_pos (binExp x - 52)
  rw [f64Round_eq x hx]
  have hm : x / 2 ^ (binExp x - 52) ≤ M := (div_le_iff₀ hu).mpr h
  have := roundHalfEven_le _ M hm
  have hc : (roundHalfEven (x / 2 ^ (binExp x - 52)) : ℚ) ≤ M := by exact_mod_cast this
  exact mul_le_mul_of_nonneg_right hc (le_of_lt hu)

theorem grid_le_f64Round (x : ℚ) (hx : x ≠ 0) (M : ℤ)
    (h : (M : ℚ) * 2 ^ (binExp x - 52) ≤ x) : (M : ℚ) * 2 ^ (binExp x - 52) ≤ f64Round x := by
  have hu := two_zpow_pos (binExp x - 52)
  rw [f64Round_eq x hx]
  have hm : (M : ℚ) ≤ x / 2 ^ (binExp x - 52) := (le_div_iff₀ hu).mpr h
  have := le_roundHalfEven _ M hm
  have hc : (M : ℚ) ≤ roundHalfEven (x / 2 ^ (binExp x - 52)) := by exact_mod_cast this
  exact mul_le_mul_of_nonneg_right hc (le_of_lt hu)

theorem f64Round_le_grid_of_lt_half (x : ℚ) (hx : x ≠ 0) (M : ℤ)
    (h : x < (M + 1 / 2) * 2 ^ (binExp x - 52)) : f64Round x ≤ M * 2 ^ (binExp x - 52) := by
  have hu := two_zpow_pos (binExp x - 52)
  rw [f64Round_eq x hx]
  have hm : x / 2 ^ (binExp x - 52) < M + 1 / 2 := (div_lt_iff₀ hu).mpr h
  have := roundHalfEven_le_of_lt_half _ M hm
  have hc : (roundHalfEven (x / 2 ^ (binExp x - 52)) : ℚ) ≤ M := by exact_mod_cast this
  exact mul_le_mul_of_nonneg_right hc (le_of_lt hu)

theorem binExp_lt_of_lt (x : ℚ) (hx : 0 < x) (E : ℤ) (hE : x < 2 ^ E) : binExp x < E := by
  obtain ⟨s1, -⟩ := binExp_spec x (ne_of_gt hx)
  rw [abs_of_pos hx] at s1
  exact (zpow_lt_zpow_iff_right₀ (by norm_num : (1 : ℚ) < 2)).mp (lt_of_le_of_lt s1 hE)

theorem grid_multiple (x : ℚ) (hx : 0 < x) (E : ℤ) (hE : x < 2 ^ E) (N : ℤ) :
    ∃ M : ℤ, (N : ℚ) * 2 ^ (E - 53) = M * 2 ^ (binExp x - 52) := by
  have hlt := binExp_lt_of_lt x hx E hE
  refine ⟨N * 2 ^ (E - 1 - binExp x).toNat, ?_⟩
  have hk : ((E - 1 - binExp x).toNat : ℤ) = E - 1 - binExp x := Int.toNat_of_nonneg (by omega)
  have hsplit : (2 : ℚ) ^ (E - 53) = 2 ^ ((E - 1 - binExp x).toNat : ℤ) * 2 ^ (binExp x - 52) := by
    rw [← zpow_add₀ (by norm_num : (2 : ℚ) ≠ 0), hk]
    congr 1
    ring
  rw [hsplit, zpow_natCast]
  push_cast
  ring

/-- Rounding does not cross a multiple of `2 ^ (E - 53)` from below, for
arguments below `2 ^ E`. -/
theorem f64Round_le_of_le (x : ℚ) (hx : 0 ≤ x) (E : ℤ) (hE : x < 2 ^ E) (N : ℤ)
    (h : x ≤ N * 2 ^ (E - 53)) : f64Round x ≤ N * 2 ^ (E - 53) := by
  rcases eq_or_lt_of_le hx with h0 | hpos
  · rw [← h0, f64Round_zero]
    rw [← h0] at h
    exact h
  · obtain ⟨M, hM⟩ := grid_multiple x hpos E hE N
    rw [hM] at h ⊢
    exact f64Round_le_grid x (ne_of_gt hpos) M h

/-- Rounding does not cross a multiple of `2 ^ (E - 53)` from above, for
arguments below `2 ^ E`. -/
theorem le_f64Round_of_le (x : ℚ) (hx : 0 ≤ x) (E : ℤ) (hE : x < 2 ^ E) (N : ℤ)
    (h : (N : ℚ) * 2 ^ (E - 53) ≤ x) : (N : ℚ) * 2 ^ (E - 53) ≤ f64Round x := by
  rcases eq_or_lt_of_le hx with h0 | hpos
  · rw [← h0, f64Round_zero]
    rw [← h0] at h
    exact h
  · obtain ⟨M, hM⟩ := grid_multiple x hpos E hE N
    rw [hM] at h ⊢
    exact grid_le_f64Round x (ne_of_gt hpos) M h

/-- An argument in the binade of `2 ^ e` that lies below the midpoint above a
multiple of the spacing `2 ^ (e - 52)` is not rounded beyond that multiple. -/
theorem f64Round_le_of_binade (x : ℚ) (e : ℤ) (h1 : (2 : ℚ) ^ e ≤ x) (h2 : x < 2 ^ (e + 1))
    (N : ℤ) (h : x < N * 2 ^ (e - 52) + 2 ^ (e - 53)) : f64Round x ≤ N * 2 ^ (e - 52) := by
  have hpos : 0 < x := lt_of_lt_of_le (two_zpow_pos e) h1
  have hb : binExp x = e := binExp_unique x e (by rwa [abs_of_pos hpos]) (by rwa [abs_of_pos hpos])
  have hhalf : (2 : ℚ) ^ (e - 53) = 1 / 2 * 2 ^ (e - 52) := by
    rw [show e - 52 = (e - 53) + 1 by ring, zpow_add₀ (by norm_num : (2 : ℚ) ≠ 0), zpow_one]
    ring
  have := f64Round_le_grid_of_lt_half x (ne_of_gt hpos) N (by rw [hb, add_mul, ← hhalf]; exact h)
  rwa [hb] at this

/-- An argument below `2 ^ E` that lies below the midpoint under a multiple of
`2 ^ (E - 53)` is rounded to that midpoint at most, so stays below the
multiple. -/
theorem f64Round_le_of_lt_half (x : ℚ) (hx : 0 ≤ x) (E : ℤ) (hE : x < 2 ^ E) (N : ℤ)
    (h : x < N * 2 ^ (E - 53) - 2 ^ (E - 54)) :
    f64Round x ≤ N * 2 ^ (E - 53) - 2 ^ (E - 54) := by
  have hhalf : (2 : ℚ) ^ (E - 53) = 2 * 2 ^ (E - 54) := by
    rw [show E - 53 = (E - 54) + 1 by ring, zpow_add₀ (by norm_num : (2 : ℚ) ≠ 0), zpow_one]
    ring
  have hg : (N : ℚ) * 2 ^ (E - 53) - 2 ^ (E - 54) = ((2 * N - 1 : ℤ) : ℚ) * 2 ^ (E - 1 - 53) := by
    rw [hhalf, show E - 1 - 53 = E - 54 by ring]
    push_cast
    ring
  by_cases hlow : x < 2 ^ (E - 1)
  · rw [hg] at h ⊢
    exact f64Round_le_of_le x hx (E - 1) hlow _ (le_of_lt h)
  · have h1 : (2 : ℚ) ^ (E - 1) ≤ x := not_lt.mp hlow
    have h2 : x < 2 ^ (E - 1 + 1) := by rwa [sub_add_cancel]
    have hbin := f64Round_le_of_binade x (E - 1) h1 h2 (N - 1) (by
      rw [show E - 1 - 52 = E - 53 by ring, show E - 1 - 53 = E - 54 by ring]
      push_cast
      rw [hhalf] at h ⊢
      linarith)
    rw [show E - 1 - 52 = E - 53 by ring] at hbin
    push_cast at hbin
    have hp := two_zpow_pos (E - 54)
    rw [hhalf] at hbin ⊢
    linarith

/-! ## The day count of a duration -/

theorem f64Round_nonneg (x : ℚ) (hx : 0 ≤ x) (E : ℤ) (hE : x < 2 ^ E) : 0 ≤ f64Round x := by
  have := le_f64Round_of_le x hx E hE 0 (by simpa using hx)
  simpa using this

theorem f64Round_int (i : ℤ) (h0 : 0 ≤ i) (h1 : i < 9007199254740992) :
    f64Round (i : ℚ) = i := by
  have hx : (0 : ℚ) ≤ i := by exact_mod_cast h0
  have hE : (i : ℚ) < 2 ^ (53 : ℤ) := by
    have : (i : ℚ) < 9007199254740992 := by exact_mod_cast h1
    norm_num
    exact this
  have a := f64Round_le_of_le (i : ℚ) hx 53 hE i (by norm_num)
  have b := le_f64Round_of_le (i : ℚ) hx 53 hE i (by norm_num)
  norm_num at a b
  exact le_antisymm a b

theorem f64ToInt_of_nonneg (v : ℚ) (hv : 0 ≤ v) : f64ToInt v = ⌊v⌋ := by
  simp [f64ToInt, hv]

/-- The quotient `float64(nsec)/(60*60*1e9)` of a nanosecond count below one
hour lies between 0 and the `float64` `1 - 2^-42 - 2^-53`. -/
theorem frac_bounds (n : ℤ) (h0 : 0 ≤ n) (h1 : n < Hour) :
    0 ≤ f64Div (f64OfInt n) 3600000000000
      ∧ f64Div (f64OfInt n) 3600000000000 ≤ 1 - 2 ^ (-42 : ℤ) - 2 ^ (-53 : ℤ) := by
  have hn : f64OfInt n = n := f64Round_int n h0 (by unfold Hour at h1; omega)
  have hq0 : (0 : ℚ) ≤ n := by exact_mod_cast h0
  have hq1 : (n : ℚ) ≤ 3599999999999 := by
    have : n ≤ 3599999999999 := by unfold Hour at h1; omega
    exact_mod_cast this
  have hx0 : (0 : ℚ) ≤ (n : ℚ) / 3600000000000 := by positivity
  have hx1 : (n : ℚ) / 3600000000000 ≤ 3599999999999 / 3600000000000 := by
    apply div_le_div_of_nonneg_right hq1; norm_num
  have hE : (n : ℚ) / 3600000000000 < 2 ^ (0 : ℤ) := by
    norm_num
    linarith
  unfold f64Div
  rw [hn]
  refine ⟨f64Round_nonneg _ hx0 0 hE, ?_⟩
  have := f64Round_le_of_le _ hx0 0 hE (9007199254738943) (by norm_num; linarith)
  norm_num at this ⊢
  exact this

/-- Two nanoseconds or more before the full hour the quotient stays at or below
the `float64` `1 - 2^-41 - 2^-53`. -/
theorem frac_le_of_le_sub_two (n : ℤ) (h0 : 0 ≤ n) (h1 : n ≤ Hour - 2) :
    f64Div (f64OfInt n) 3600000000000 ≤ 1 - 2 ^ (-41 : ℤ) - 2 ^ (-53 : ℤ) := by
  have hn : f64OfInt n = n := f64Round_int n h0 (by unfold Hour at h1; omega)
  have hq0 : (0 : ℚ) ≤ n := by exact_mod_cast h0
  have hq1 : (n : ℚ) ≤ 3599999999998 := by
    have : n ≤ 3599999999998 := by unfold Hour at h1; omega
    exact_mod_cast this
  have hx0 : (0 : ℚ) ≤ (n : ℚ) / 3600000000000 := by positivity
  have hx1 : (n : ℚ) / 3600000000000 ≤ 3599999999998 / 3600000000000 := by
    apply div_le_div_of_nonneg_right hq1; norm_num
  have hE : (n : ℚ) / 3600000000000 < 2 ^ (0 : ℤ) := by
    norm_num
    linarith
  unfold f64Div
  rw [hn]
  have := f64Round_le_of_le _ hx0 0 hE (9007199254736895) (by norm_num; linarith)
  norm_num at this ⊢
  exact this

theorem Hours_eq (d : ℤ) (h0 : 0 ≤ d) (hmax : d ≤ maxDuration) :
    Hours d = f64Round (((d / Hour : ℤ) : ℚ) + f64Div (f64OfInt (d % Hour)) 3600000000000) := by
  have hH : (0 : ℤ) ≤ Hour := by decide
  have hdiv0 : 0 ≤ d / Hour := Int.ediv_nonneg h0 hH
  have hdiv1 : d / Hour < 9007199254740992 := by
    unfold Hour; unfold maxDuration at hmax; omega
  unfold Hours
  simp only [Int.tdiv_eq_ediv h0 hH, Int.tmod_eq_emod h0 hH, f64Add]
  rw [show f64OfInt (d / Hour) = ((d / Hour : ℤ) : ℚ) from f64Round_int _ hdiv0 hdiv1]

theorem Hours_ge (d : ℤ) (h0 : 0 ≤ d) (hmax : d ≤ maxDuration) :
    ((d / Hour : ℤ) : ℚ) ≤ Hours d := by
  have hH : (0 : ℤ) < Hour := by decide
  obtain ⟨f0, f1⟩ := frac_bounds (d % Hour) (Int.emod_nonneg d (ne_of_gt hH))
    (Int.emod_lt_of_pos d hH)
  have hh0 : (0 : ℚ) ≤ ((d / Hour : ℤ) : ℚ) := by
    exact_mod_cast Int.ediv_nonneg h0 (le_of_lt hH)
  have hh1 : ((d / Hour : ℤ) : ℚ) ≤ 2562047 := by
    have : d / Hour ≤ 2562047 := by unfold Hour; unfold maxDuration at hmax; omega
    exact_mod_cast this
  rw [Hours_eq d h0 hmax]
  norm_num at f1
  have := le_f64Round_of_le (((d / Hour : ℤ) : ℚ) + f64Div (f64OfInt (d % Hour)) 3600000000000)
    (by linarith) 53 (by norm_num; linarith) (d / Hour) (by norm_num; linarith)
  norm_num at this
  exact this

theorem Hours_le (d : ℤ) (h0 : 0 ≤ d) (hmax : d ≤ maxDuration) :
    Hours d ≤ ((d / Hour : ℤ) : ℚ) + 1 := by
  have hH : (0 : ℤ) < Hour := by decide
  obtain ⟨f0, f1⟩ := frac_bounds (d % Hour) (Int.emod_nonneg d (ne_of_gt hH))
    (Int.emod_lt_of_pos d hH)
  have hh0 : (0 : ℚ) ≤ ((d / Hour : ℤ) : ℚ) := by
    exact_mod_cast Int.ediv_nonneg h0 (le_of_lt hH)
  have hh1 : ((d / Hour : ℤ) : ℚ) ≤ 2562047 := by
    have : d / Hour ≤ 2562047 := by unfold Hour; unfold maxDuration at hmax; omega
    exact_mod_cast this
  rw [Hours_eq d h0 hmax]
  norm_num at f1
  have := f64Round_le_of_le (((d / Hour : ℤ) : ℚ) + f64Div (f64OfInt (d % Hour)) 3600000000000)
    (by linarith) 53 (by norm_num; linarith) (d / Hour + 1) (by norm_num; linarith)
  norm_num at this
  exact this

/-- Below 4096 hours the hour count stays at least `2^-42` under the next whole
hour. -/
theorem Hours_le_of_lt_4096 (d : ℤ) (h0 : 0 ≤ d) (hlt : d < 4096 * Hour) :
    Hours d ≤ ((d / Hour : ℤ) : ℚ) + 1 - 2 ^ (-42 : ℤ) := by
  have hH : (0 : ℤ) < Hour := by decide
  have hmax : d ≤ maxDuration := by unfold Hour at hlt; unfold maxDuration; omega
  obtain ⟨f0, f1⟩ := frac_bounds (d % Hour) (Int.emod_nonneg d (ne_of_gt hH))
    (Int.emod_lt_of_pos d hH)
  have hh0 : (0 : ℚ) ≤ ((d / Hour : ℤ) : ℚ) := by
    exact_mod_cast Int.ediv_nonneg h0 (le_of_lt hH)
  have hh1 : ((d / Hour : ℤ) : ℚ) ≤ 4095 := by
    have : d / Hour ≤ 4095 := by unfold Hour at hlt ⊢; omega
    exact_mod_cast this
  rw [Hours_eq d h0 hmax]
  norm_num at f1
  have := f64Round_le_of_lt_half
    (((d / Hour : ℤ) : ℚ) + f64Div (f64OfInt (d % Hour)) 3600000000000)
    (by linarith) 12 (by norm_num; linarith) ((d / Hour + 1) * 2199023255552)
    (by norm_num; linarith)
  norm_num at this ⊢
  linarith

/-- Between 2048 and 4096 hours the spacing of `float64` is `2^-41`, and the
hour count stays at least that much under the next whole hour. -/
theorem Hours_le_of_2048_le (d : ℤ) (h0 : 0 ≤ d) (hge : 2048 * Hour ≤ d)
    (hlt : d < 4096 * Hour) :
    Hours d ≤ ((d / Hour : ℤ) : ℚ) + 1 - 2 ^ (-41 : ℤ) := by
  have hH : (0 : ℤ) < Hour := by decide
  have hmax : d ≤ maxDuration := by unfold Hour at hlt; unfold maxDuration; omega
  obtain ⟨f0, f1⟩ := frac_bounds (d % Hour) (Int.emod_nonneg d (ne_of_gt hH))
    (Int.emod_lt_of_pos d hH)
  have hh0 : (2048 : ℚ) ≤ ((d / Hour : ℤ) : ℚ) := by
    have : 2048 ≤ d / Hour := by unfold Hour at hge ⊢; omega
    exact_mod_cast this
  have hh1 : ((d / Hour : ℤ) : ℚ) ≤ 4095 := by
    have : d / Hour ≤ 4095 := by unfold Hour at hlt ⊢; omega
    exact_mod_cast this
  rw [Hours_eq d h0 hmax]
  norm_num at f1
  have := f64Round_le_of_binade
    (((d / Hour : ℤ) : ℚ) + f64Div (f64OfInt (d % Hour)) 3600000000000) 11
    (by norm_num; linarith) (by norm_num; linarith) ((d / Hour + 1) * 2199023255552 - 1)
    (by norm_num; linarith)
  norm_num at this ⊢
  linarith

/-- Between 4096 and 8192 hours the spacing of `float64` is `2^-40`; two
nanoseconds or more before the full hour the hour count stays at least that much
under the next whole hour. -/
theorem Hours_le_of_4096_le (d : ℤ) (h0 : 0 ≤ d) (hge : 4096 * Hour ≤ d)
    (hlt : d < 8192 * Hour) (hns : d % Hour ≤ Hour - 2) :
    Hours d ≤ ((d / Hour : ℤ) : ℚ) + 1 - 2 ^ (-40 : ℤ) := by
  have hH : (0 : ℤ) < Hour := by decide
  have hmax : d ≤ maxDuration := by unfold Hour at hlt; unfold maxDuration; omega
  obtain ⟨f0, -⟩ := frac_bounds (d % Hour) (Int.emod_nonneg d (ne_of_gt hH))
    (Int.emod_lt_of_pos d hH)
  have f1 := frac_le_of_le_sub_two (d % Hour) (Int.emod_nonneg d (ne_of_gt hH)) hns
  have hh0 : (4096 : ℚ) ≤ ((d / Hour : ℤ) : ℚ) := by
    have : 4096 ≤ d / Hour := by unfold Hour at hge ⊢; omega
    exact_mod_cast this
  have hh1 : ((d / Hour : ℤ) : ℚ) ≤ 8191 := by
    have : d / Hour ≤ 8191 := by unfold Hour at hlt ⊢; omega
    exact_mod_cast this
  rw [Hours_eq d h0 hmax]
  norm_num at f1
  have := f64Round_le_of_binade
    (((d / Hour : ℤ) : ℚ) + f64Div (f64OfInt (d % Hour)) 3600000000000) 12
    (by norm_num; linarith) (by norm_num; linarith) ((d / Hour + 1) * 1099511627776 - 1)
    (by norm_num; linarith)
  norm_num at this ⊢
  linarith

theorem day_ge_of_hours (r : ℚ) (hr0 : 0 ≤ r) (hr1 : r ≤ 4194304) (k : ℤ)
    (h : (24 * k : ℚ) ≤ r) : k ≤ f64ToInt (f64Div r 24) := by
  have hw0 : 0 ≤ r / 24 := by positivity
  have hwE : r / 24 < 2 ^ (53 : ℤ) := by norm_num; linarith
  have hv0 : 0 ≤ f64Div r 24 := f64Round_nonneg _ hw0 53 hwE
  rw [f64ToInt_of_nonneg _ hv0, Int.le_floor]
  have := le_f64Round_of_le (r / 24) hw0 53 hwE k (by norm_num; linarith)
  norm_num at this
  exact this

theorem day_lt_of_hours (r : ℚ) (hr0 : 0 ≤ r) (hr1 : r ≤ 4194304) (T : ℤ)
    (h : r ≤ 24 * T - 1) : f64ToInt (f64Div r 24) < T := by
  have hw0 : 0 ≤ r / 24 := by positivity
  have hwE : r / 24 < 2 ^ (48 : ℤ) := by norm_num; linarith
  have hv0 : 0 ≤ f64Div r 24 := f64Round_nonneg _ hw0 48 hwE
  rw [f64ToInt_of_nonneg _ hv0, Int.floor_lt]
  have := f64Round_le_of_le (r / 24) hw0 48 hwE (32 * T - 1) (by norm_num; linarith)
  norm_num at this
  unfold f64Div
  linarith

theorem day_lt_of_hours_128 (r : ℚ) (hr0 : 0 ≤ r) (T : ℤ) (hT : T ≤ 128)
    (h : r ≤ 24 * T - 2 ^ (-42 : ℤ)) : f64ToInt (f64Div r 24) < T := by
  have hTq : (T : ℚ) ≤ 128 := by exact_mod_cast hT
  norm_num at h
  have hw0 : 0 ≤ r / 24 := by positivity
  have hwE : r / 24 < 2 ^ (7 : ℤ) := by norm_num; linarith
  have hv0 : 0 ≤ f64Div r 24 := f64Round_nonneg _ hw0 7 hwE
  rw [f64ToInt_of_nonneg _ hv0, Int.floor_lt]
  have := f64Round_le_of_lt_half (r / 24) hw0 7 hwE (T * 70368744177664) (by norm_num; linarith)
  norm_num at this
  unfold f64Div
  linarith

theorem day_lt_of_hours_256 (r : ℚ) (hr0 : 0 ≤ r) (T : ℤ) (hT : T ≤ 255)
    (h : r ≤ 24 * T - 2 ^ (-41 : ℤ)) : f64ToInt (f64Div r 24) < T := by
  have hTq : (T : ℚ) ≤ 255 := by exact_mod_cast hT
  norm_num at h
  have hw0 : 0 ≤ r / 24 := by positivity
  have hwE : r / 24 < 2 ^ (8 : ℤ) := by norm_num; linarith
  have hv0 : 0 ≤ f64Div r 24 := f64Round_nonneg _ hw0 8 hwE
  rw [f64ToInt_of_nonneg _ hv0, Int.floor_lt]
  have := f64Round_le_of_lt_half (r / 24) hw0 8 hwE (T * 35184372088832) (by norm_num; linarith)
  norm_num at this
  unfold f64Div
  linarith

theorem Hours_nonneg (d : ℤ) (h0 : 0 ≤ d) (hmax : d ≤ maxDuration) : 0 ≤ Hours d := by
  have hH : (0 : ℤ) < Hour := by decide
  have hh0 : (0 : ℚ) ≤ ((d / Hour : ℤ) : ℚ) := by
    exact_mod_cast Int.ediv_nonneg h0 (le_of_lt hH)
  exact le_trans hh0 (Hours_ge d h0 hmax)

theorem Hours_le_bound (d : ℤ) (h0 : 0 ≤ d) (hmax : d ≤ maxDuration) : Hours d ≤ 4194304 := by
  have hh1 : ((d / Hour : ℤ) : ℚ) ≤ 2562047 := by
    have : d / Hour ≤ 2562047 := by unfold Hour; unfold maxDuration at hmax; omega
    exact_mod_cast this
  have := Hours_le d h0 hmax
  linarith

/-- The day count is at least every whole number of days that fits into the
whole hours of the duration. -/
theorem dayOf_ge (d : ℤ) (h0 : 0 ≤ d) (hmax : d ≤ maxDuration) (k : ℤ)
    (hk : 24 * k ≤ d / Hour) : k ≤ f64ToInt (f64Div (Hours d) 24) := by
  apply day_ge_of_hours _ (Hours_nonneg d h0 hmax) (Hours_le_bound d h0 hmax)
  have : ((24 * k : ℤ) : ℚ) ≤ ((d / Hour : ℤ) : ℚ) := by exact_mod_cast hk
  push_cast at this
  exact le_trans this (Hours_ge d h0 hmax)

/-- More than one hour before the end of day `T`, the day count is below `T`. -/
theorem dayOf_lt_early (d : ℤ) (h0 : 0 ≤ d) (hmax : d ≤ maxDuration) (T : ℤ)
    (hT : d / Hour + 2 ≤ 24 * T) : f64ToInt (f64Div (Hours d) 24) < T := by
  apply day_lt_of_hours _ (Hours_nonneg d h0 hmax) (Hours_le_bound d h0 hmax)
  have : ((d / Hour + 2 : ℤ) : ℚ) ≤ ((24 * T : ℤ) : ℚ) := by exact_mod_cast hT
  push_cast at this
  have := Hours_le d h0 hmax
  linarith

/-- Below 4096 hours the day count is below `T` up to the end of day `T`. -/
theorem dayOf_lt_of_lt_4096 (d : ℤ) (h0 : 0 ≤ d) (hlt : d < 4096 * Hour) (T : ℤ)
    (hT : d / Hour + 1 ≤ 24 * T) : f64ToInt (f64Div (Hours d) 24) < T := by
  have hmax : d ≤ maxDuration := by unfold Hour at hlt; unfold maxDuration; omega
  have hTc : ((d / Hour + 1 : ℤ) : ℚ) ≤ ((24 * T : ℤ) : ℚ) := by exact_mod_cast hT
  push_cast at hTc
  by_cases hearly : d / Hour + 2 ≤ 24 * T
  · exact dayOf_lt_early d h0 hmax T hearly
  · have hlast : d / Hour + 1 = 24 * T := by omega
    have hdh : d / Hour ≤ 4095 := by unfold Hour at hlt ⊢; omega
    by_cases hsmall : T ≤ 128
    · apply day_lt_of_hours_128 _ (Hours_nonneg d h0 hmax) T hsmall
      exact le_trans (Hours_le_of_lt_4096 d h0 hlt) (sub_le_sub_right hTc _)
    · have hge : 2048 * Hour ≤ d := by
        have : 2048 ≤ d / Hour := by omega
        unfold Hour at this ⊢
        omega
      apply day_lt_of_hours_256 _ (Hours_nonneg d h0 hmax) T (by omega)
      exact le_trans (Hours_le_of_2048_le d h0 hge hlt) (sub_le_sub_right hTc _)

/-- Below 171 days minus one nanosecond the day count is below `T` up to the
end of day `T`. -/
theorem dayOf_lt_of_lt_171_days (d : ℤ) (h0 : 0 ≤ d) (hlt : d < 171 * Day - 1) (T : ℤ)
    (hT : d / Hour + 1 ≤ 24 * T) : f64ToInt (f64Div (Hours d) 24) < T := by
  have hmax : d ≤ maxDuration := by unfold Day at hlt; unfold maxDuration; omega
  have hTc : ((d / Hour + 1 : ℤ) : ℚ) ≤ ((24 * T : ℤ) : ℚ) := by exact_mod_cast hT
  push_cast at hTc
  by_cases hsmall : d < 4096 * Hour
  · exact dayOf_lt_of_lt_4096 d h0 hsmall T hT
  · by_cases hearly : d / Hour + 2 ≤ 24 * T
    · exact dayOf_lt_early d h0 hmax T hearly
    · have hdh : d / Hour = 4103 ∧ d % Hour ≤ Hour - 2 := by
        unfold Day at hlt
        unfold Hour at hsmall hT hearly ⊢
        omega
      have hT171 : T = 171 := by omega
      apply day_lt_of_hours_256 _ (Hours_nonneg d h0 hmax) T (by omega)
      have h40 := Hours_le_of_4096_le d h0 (by omega) (by unfold Day at hlt; unfold Hour; omega)
        hdh.2
      have h41 : (2 : ℚ) ^ (-41 : ℤ) ≤ 2 ^ (-40 : ℤ) := by norm_num
      exact le_trans h40 (sub_le_sub hTc h41)

theorem ediv_Day (d : ℤ) : d / Day = d / Hour / 24 := by
  unfold Day Hour
  omega

/-- The day count of a duration is the whole number of days in it, as long as
the duration is below 171 days minus one nanosecond or does not lie in the last
hour of a day. -/
theorem dayOf_eq (d : ℤ) (h0 : 0 ≤ d)
    (hb : d < 171 * Day - 1 ∨ (d ≤ maxDuration ∧ d / Hour % 24 ≠ 23)) :
    f64ToInt (f64Div (Hours d) 24) = d / Day := by
  have hmax : d ≤ maxDuration := by
    rcases hb with h | h
    · unfold Day at h; unfold maxDuration; omega
    · exact h.1
  have hlo := dayOf_ge d h0 hmax (d / Hour / 24) (by omega)
  have hhi : f64ToInt (f64Div (Hours d) 24) < d / Hour / 24 + 1 := by
    rcases hb with h | h
    · exact dayOf_lt_of_lt_171_days d h0 h _ (by omega)
    · exact dayOf_lt_early d h0 hmax _ (by omega)
  rw [ediv_Day]
  omega

/-! ## The day count of two instants -/

theorem Sub_of_le (t now : ℤ) (h : now ≤ t) :
    Sub t now = if t - now ≤ maxDuration then t - now else maxDuration := by
  unfold Sub
  simp only
  have h1 : minDuration ≤ t - now := by unfold minDuration; omega
  have h2 : ¬ t < now := by omega
  simp [h1, h2]

theorem Sub_bounds (t now : ℤ) (h : now ≤ t) : 0 ≤ Sub t now ∧ Sub t now ≤ maxDuration := by
  rw [Sub_of_le t now h]
  split
  · constructor <;> omega
  · constructor <;> decide

theorem dayCount_nonneg (t now : ℤ) (h : now ≤ t) : 0 ≤ dayCount t now := by
  obtain ⟨s0, s1⟩ := Sub_bounds t now h
  exact dayOf_ge (Sub t now) s0 s1 0 (by
    have : 0 ≤ Sub t now / Hour := Int.ediv_nonneg s0 (by decide)
    omega)

theorem dayCount_eq (t now : ℤ) (h : now ≤ t)
    (hb : t - now < 171 * Day - 1 ∨ (t - now ≤ maxDuration ∧ (t - now) / Hour % 24 ≠ 23)) :
    dayCount t now = (t - now) / Day := by
  have hmax : t - now ≤ maxDuration := by
    rcases hb with h | h
    · unfold Day at h; unfold maxDuration; omega
    · exact h.1
  have hs : Sub t now = t - now := by rw [Sub_of_le t now h]; simp [hmax]
  unfold dayCount
  rw [hs]
  exact dayOf_eq (t - now) (by omega) hb

/-- The day count is at least `k` once `k` whole days (at most 106751, the
largest number a `Duration` holds) separate the two instants. -/
theorem dayCount_ge (t now : ℤ) (k : ℤ) (hk0 : 0 ≤ k) (hk : k ≤ 106751)
    (h : k * Day ≤ t - now) : k ≤ dayCount t now := by
  have hle : now ≤ t := by
    have : 0 ≤ k * Day := Int.mul_nonneg hk0 (by decide)
    omega
  obtain ⟨s0, s1⟩ := Sub_bounds t now hle
  apply dayOf_ge (Sub t now) s0 s1 k
  rw [Sub_of_le t now hle]
  unfold Day at h
  unfold Hour
  split
  · omega
  · unfold maxDuration
    omega

/-! ## Rounding up: the last hour before a whole day -/

theorem le_roundHalfEven_of_half_le (m : ℚ) (N : ℤ) (hev : N % 2 = 0)
    (h : (N : ℚ) - 1 / 2 ≤ m) : N ≤ roundHalfEven m := by
  have hf2 : m < ⌊m⌋ + 1 := Int.lt_floor_add_one m
  have hfl : N - 1 ≤ ⌊m⌋ := by
    have : ((N - 1 : ℤ) : ℚ) ≤ m := by push_cast; linarith
    exact Int.le_floor.mpr this
  unfold roundHalfEven
  simp only
  split
  · rename_i hr
    have : ((N - 1 : ℤ) : ℚ) < ⌊m⌋ := by push_cast; linarith
    have : N - 1 < ⌊m⌋ := by exact_mod_cast this
    omega
  · split
    · omega
    · split
      · omega
      · omega

theorem f64Round_ge_grid_of_half_le (x : ℚ) (hx : x ≠ 0) (M : ℤ) (hev : M % 2 = 0)
    (h : ((M : ℚ) - 1 / 2) * 2 ^ (binExp x - 52) ≤ x) :
    (M : ℚ) * 2 ^ (binExp x - 52) ≤ f64Round x := by
  have hu := two_zpow_pos (binExp x - 52)
  rw [f64Round_eq x hx]
  have hm : (M : ℚ) - 1 / 2 ≤ x / 2 ^ (binExp x - 52) := (le_div_iff₀ hu).mpr h
  have := le_roundHalfEven_of_half_le _ M hev hm
  have hc : (M : ℚ) ≤ roundHalfEven (x / 2 ^ (binExp x - 52)) := by exact_mod_cast this
  exact mul_le_mul_of_nonneg_right hc (le_of_lt hu)

/-- An argument in the binade of `2 ^ e` that lies at or above the midpoint
below an even multiple of the spacing `2 ^ (e - 52)` is rounded up to that
multiple at least. -/
theorem f64Round_ge_of_binade (x : ℚ) (e : ℤ) (h1 : (2 : ℚ) ^ e ≤ x) (h2 : x < 2 ^ (e + 1))
    (N : ℤ) (hev : N % 2 = 0) (h : (N : ℚ) * 2 ^ (e - 52) - 2 ^ (e - 53) ≤ x) :
    (N : ℚ) * 2 ^ (e - 52) ≤ f64Round x := by
  have hpos : 0 < x := lt_of_lt_of_le (two_zpow_pos e) h1
  have hb : binExp x = e := binExp_unique x e (by rwa [abs_of_pos hpos]) (by rwa [abs_of_pos hpos])
  have hhalf : (2 : ℚ) ^ (e - 53) = 1 / 2 * 2 ^ (e - 52) := by
    rw [show e - 52 = (e - 53) + 1 by ring, zpow_add₀ (by norm_num : (2 : ℚ) ≠ 0), zpow_one]
    ring
  have := f64Round_ge_grid_of_half_le x (ne_of_gt hpos) N hev (by
    rw [hb, sub_mul, ← hhalf]; exact h)
  rwa [hb] at this

theorem two_zpow_natCast_sub (e k : ℕ) : (2 : ℚ) ^ ((e : ℤ) - (k : ℤ)) = 2 ^ e / 2 ^ k := by
  rw [zpow_sub₀ (by norm_num : (2 : ℚ) ≠ 0), zpow_natCast, zpow_natCast]

theorem two_pow_le_of_le (e : ℕ) (he : e ≤ 21) : (2 : ℚ) ^ e ≤ 2097152 := by
  have : (2 : ℚ) ^ e ≤ 2 ^ 21 := pow_le_pow_right₀ (by norm_num) he
  norm_num at this
  exact this

theorem binade_le (h : ℤ) (e : ℕ) (hh : h ≤ 2562047) (he1 : (2 : ℤ) ^ e ≤ h) : e ≤ 21 := by
  by_contra hcon
  have h22 : 22 ≤ e := by omega
  have : (2 : ℤ) ^ 22 ≤ 2 ^ e := pow_le_pow_right₀ (by norm_num) h22
  norm_num at this
  omega

/-- The binade of an hour count that fits a `Duration` is at most 21. -/
theorem binade_le_of_hours (d : ℤ) (hmax : d ≤ maxDuration) (e : ℕ)
    (he1 : (2 : ℤ) ^ e ≤ d / Hour) : e ≤ 21 :=
  binade_le (d / Hour) e (by unfold Hour; unfold maxDuration at hmax; omega) he1

theorem two_pow_sub_mul (k e : ℕ) (he : e ≤ k) : (2 : ℚ) ^ (k - e) * 2 ^ e = 2 ^ k := by
  rw [← pow_add, Nat.sub_add_cancel he]

theorem gap_cast (n : ℤ) (e : ℕ) (a b : ℤ)
    (ha : a = Hour * (2 ^ (e + 1) + 1)) (hb : b = (Hour - n) * 2 ^ 54) :
    (a : ℚ) = 3600000000000 * (2 * 2 ^ e + 1)
      ∧ (b : ℚ) = (3600000000000 - (n : ℚ)) * 18014398509481984 := by
  subst ha hb
  unfold Hour
  push_cast
  constructor
  · rw [pow_succ]; ring
  · norm_num

/-- The time left to the next whole hour is never exactly the rounding
threshold. -/
theorem gap_ne (n : ℤ) (e : ℕ) : (Hour - n) * 2 ^ 54 ≠ Hour * (2 ^ (e + 1) + 1) := by
  unfold Hour
  rw [pow_succ]
  generalize (2 : ℤ) ^ e = P
  norm_num
  omega

/-- With more than half a spacing left to the next whole hour, the quotient
`float64(nsec)/(60*60*1e9)` stays a spacing below `1 - 2^e / 2^53`. -/
theorem frac_le_of_gap (n : ℤ) (h0 : 0 ≤ n) (h1 : n < Hour) (e : ℕ) (he : e ≤ 21)
    (hgap : Hour * (2 ^ (e + 1) + 1) < (Hour - n) * 2 ^ 54) :
    f64Div (f64OfInt n) 3600000000000 ≤ 1 - 2 ^ e / 2 ^ 53 - 1 / 2 ^ 53 := by
  have hn : f64OfInt n = n := f64Round_int n h0 (by unfold Hour at h1; omega)
  have hP0 : (0 : ℚ) < 2 ^ e := by positivity
  have hP1 := two_pow_le_of_le e he
  have hq0 : (0 : ℚ) ≤ n := by exact_mod_cast h0
  have hq1 : (n : ℚ) < 3600000000000 := by
    have := h1
    unfold Hour at this
    exact_mod_cast this
  have hg : (3600000000000 : ℚ) * (2 * 2 ^ e + 1)
      < (3600000000000 - (n : ℚ)) * 18014398509481984 := by
    obtain ⟨ca, cb⟩ := gap_cast n e _ _ rfl rfl
    rw [← ca, ← cb]
    exact_mod_cast hgap
  unfold f64Div
  rw [hn]
  have hx0 : (0 : ℚ) ≤ (n : ℚ) / 3600000000000 := by positivity
  have hxlt : (n : ℚ) / 3600000000000 < 1 := by
    rw [div_lt_one (by norm_num)]
    exact hq1
  by_cases hhalf : (n : ℚ) / 3600000000000 < 1 / 2
  · have := f64Round_le_of_le _ hx0 0 (by norm_num; linarith) 4503599627370496
      (by norm_num; linarith)
    norm_num at this
    have hb : (2 : ℚ) ^ e / 2 ^ 53 + 1 / 2 ^ 53 ≤ 1 / 2 := by
      norm_num
      linarith
    linarith
  · have hge : (1 : ℚ) / 2 ≤ (n : ℚ) / 3600000000000 := not_lt.mp hhalf
    have hkey : (n : ℚ) / 3600000000000
        < ((9007199254740992 - 2 ^ e - 1 : ℤ) : ℚ) * 2 ^ ((-1 : ℤ) - 52) + 2 ^ ((-1 : ℤ) - 53) := by
      rw [div_lt_iff₀ (by norm_num)]
      push_cast
      norm_num
      linarith
    have := f64Round_le_of_binade _ (-1) (by norm_num; linarith) (by norm_num; linarith)
      (9007199254740992 - 2 ^ e - 1) hkey
    push_cast at this
    norm_num at this ⊢
    linarith

/-- With less than half a spacing left to the next whole hour, the quotient
`float64(nsec)/(60*60*1e9)` is rounded up to `1 - 2^e / 2^53` at least. -/
theorem frac_ge_of_gap (n : ℤ) (h0 : 0 ≤ n) (h1 : n < Hour) (e : ℕ) (he0 : 1 ≤ e)
    (he : e ≤ 21) (hgap : (Hour - n) * 2 ^ 54 < Hour * (2 ^ (e + 1) + 1)) :
    1 - 2 ^ e / 2 ^ 53 ≤ f64Div (f64OfInt n) 3600000000000 := by
  have hn : f64OfInt n = n := f64Round_int n h0 (by unfold Hour at h1; omega)
  have hP0 : (0 : ℚ) < 2 ^ e := by positivity
  have hP1 := two_pow_le_of_le e he
  have hq1 : (n : ℚ) < 3600000000000 := by
    have := h1
    unfold Hour at this
    exact_mod_cast this
  have hg : (3600000000000 - (n : ℚ)) * 18014398509481984
      < (3600000000000 : ℚ) * (2 * 2 ^ e + 1) := by
    obtain ⟨ca, cb⟩ := gap_cast n e _ _ rfl rfl
    rw [← ca, ← cb]
    exact_mod_cast hgap
  have hev : (9007199254740992 - 2 ^ e : ℤ) % 2 = 0 := by
    obtain ⟨k, rfl⟩ : ∃ k, e = k + 1 := ⟨e - 1, by omega⟩
    rw [pow_succ]
    generalize (2 : ℤ) ^ k = P
    omega
  unfold f64Div
  rw [hn]
  have hxlt : (n : ℚ) / 3600000000000 < 1 := by
    rw [div_lt_one (by norm_num)]
    exact hq1
  have hge : (1 : ℚ) / 2 ≤ (n : ℚ) / 3600000000000 := by
    rw [le_div_iff₀ (by norm_num)]
    linarith
  have hkey : ((9007199254740992 - 2 ^ e : ℤ) : ℚ) * 2 ^ ((-1 : ℤ) - 52) - 2 ^ ((-1 : ℤ) - 53)
      ≤ (n : ℚ) / 3600000000000 := by
    rw [le_div_iff₀ (by norm_num)]
    push_cast
    norm_num
    linarith
  have := f64Round_ge_of_binade _ (-1) (by norm_num; linarith) (by norm_num; linarith)
    (9007199254740992 - 2 ^ e) hev hkey
  push_cast at this
  norm_num at this ⊢
  linarith

/-- In the binade of `2 ^ e`, with more than half a spacing left to the next
whole hour, the hour count stays one spacing `2^e / 2^52` under that hour. -/
theorem Hours_le_of_gap (d : ℤ) (h0 : 0 ≤ d) (hmax : d ≤ maxDuration) (e : ℕ)
    (he1 : (2 : ℤ) ^ e ≤ d / Hour) (he2 : d / Hour + 1 ≤ 2 ^ (e + 1))
    (hgap : Hour * (2 ^ (e + 1) + 1) < (Hour - d % Hour) * 2 ^ 54) :
    Hours d ≤ ((d / Hour : ℤ) : ℚ) + 1 - 2 ^ e / 2 ^ 52 := by
  have hH : (0 : ℤ) < Hour := by decide
  have he : e ≤ 21 := binade_le_of_hours d hmax e he1
  have hP0 : (0 : ℚ) < 2 ^ e := by positivity
  obtain ⟨f0, -⟩ := frac_bounds (d % Hour) (Int.emod_nonneg d (ne_of_gt hH))
    (Int.emod_lt_of_pos d hH)
  have f1 := frac_le_of_gap (d % Hour) (Int.emod_nonneg d (ne_of_gt hH))
    (Int.emod_lt_of_pos d hH) e he hgap
  have c1 : ((2 : ℚ) ^ e) ≤ ((d / Hour : ℤ) : ℚ) := by exact_mod_cast he1
  have c2 : ((d / Hour : ℤ) : ℚ) + 1 ≤ 2 * 2 ^ e := by
    have : ((d / Hour + 1 : ℤ) : ℚ) ≤ ((2 ^ (e + 1) : ℤ) : ℚ) := by exact_mod_cast he2
    push_cast at this
    rw [pow_succ] at this
    linarith
  have hmul := two_pow_sub_mul 52 e (by omega)
  rw [Hours_eq d h0 hmax]
  have z52 : (2 : ℚ) ^ ((e : ℤ) - 52) = 2 ^ e / 2 ^ 52 := by
    have := two_zpow_natCast_sub e 52
    push_cast at this
    exact this
  have z53 : (2 : ℚ) ^ ((e : ℤ) - 53) = 2 ^ e / 2 ^ 53 := by
    have := two_zpow_natCast_sub e 53
    push_cast at this
    exact this
  have zN : (((d / Hour + 1) * 2 ^ (52 - e) - 1 : ℤ) : ℚ) * (2 ^ e / 2 ^ 52)
      = ((d / Hour : ℤ) : ℚ) + 1 - 2 ^ e / 2 ^ 52 := by
    push_cast
    have : (((d / Hour : ℤ) : ℚ) + 1) * 2 ^ (52 - e) * (2 ^ e / 2 ^ 52)
        = ((d / Hour : ℤ) : ℚ) + 1 := by
      rw [mul_assoc, ← mul_div_assoc, hmul]
      field_simp
    linarith
  have := f64Round_le_of_binade
    (((d / Hour : ℤ) : ℚ) + f64Div (f64OfInt (d % Hour)) 3600000000000) (e : ℤ)
    (by rw [zpow_natCast]; linarith)
    (by rw [zpow_add₀ (by norm_num : (2 : ℚ) ≠ 0), zpow_natCast, zpow_one]
        have : (1 : ℚ) / 2 ^ 53 > 0 := by positivity
        have : (2 : ℚ) ^ e / 2 ^ 53 > 0 := by positivity
        linarith)
    ((d / Hour + 1) * 2 ^ (52 - e) - 1)
    (by rw [z52, z53, zN]
        have : (1 : ℚ) / 2 ^ 53 > 0 := by positivity
        have h52 : (2 : ℚ) ^ e / 2 ^ 52 = 2 * (2 ^ e / 2 ^ 53) := by ring
        linarith)
  rw [z52, zN] at this
  exact this

/-- In the binade of `2 ^ e`, with less than half a spacing left to the next
whole hour, the hour count is rounded up to that hour. -/
theorem Hours_ge_of_gap (d : ℤ) (h0 : 0 ≤ d) (hmax : d ≤ maxDuration) (e : ℕ) (he0 : 1 ≤ e)
    (he1 : (2 : ℤ) ^ e ≤ d / Hour) (he2 : d / Hour + 1 ≤ 2 ^ (e + 1))
    (hgap : (Hour - d % Hour) * 2 ^ 54 < Hour * (2 ^ (e + 1) + 1)) :
    ((d / Hour : ℤ) : ℚ) + 1 ≤ Hours d := by
  have hH : (0 : ℤ) < Hour := by decide
  have he : e ≤ 21 := binade_le_of_hours d hmax e he1
  have hP0 : (0 : ℚ) < 2 ^ e := by positivity
  obtain ⟨-, fu⟩ := frac_bounds (d % Hour) (Int.emod_nonneg d (ne_of_gt hH))
    (Int.emod_lt_of_pos d hH)
  have f1 := frac_ge_of_gap (d % Hour) (Int.emod_nonneg d (ne_of_gt hH))
    (Int.emod_lt_of_pos d hH) e he0 he hgap
  have c1 : ((2 : ℚ) ^ e) ≤ ((d / Hour : ℤ) : ℚ) := by exact_mod_cast he1
  have c2 : ((d / Hour : ℤ) : ℚ) + 1 ≤ 2 * 2 ^ e := by
    have : ((d / Hour + 1 : ℤ) : ℚ) ≤ ((2 ^ (e + 1) : ℤ) : ℚ) := by exact_mod_cast he2
    push_cast at this
    rw [pow_succ] at this
    linarith
  have hP1 := two_pow_le_of_le e he
  have hmul := two_pow_sub_mul 52 e (by omega)
  rw [Hours_eq d h0 hmax]
  have z52 : (2 : ℚ) ^ ((e : ℤ) - 52) = 2 ^ e / 2 ^ 52 := by
    have := two_zpow_natCast_sub e 52
    push_cast at this
    exact this
  have z53 : (2 : ℚ) ^ ((e : ℤ) - 53) = 2 ^ e / 2 ^ 53 := by
    have := two_zpow_natCast_sub e 53
    push_cast at this
    exact this
  have zN : (((d / Hour + 1) * 2 ^ (52 - e) : ℤ) : ℚ) * (2 ^ e / 2 ^ 52)
      = ((d / Hour : ℤ) : ℚ) + 1 := by
    push_cast
    rw [mul_assoc, ← mul_div_assoc, hmul]
    field_simp
  have hev : ((d / Hour + 1) * 2 ^ (52 - e) : ℤ) % 2 = 0 := by
    obtain ⟨k, hk⟩ : ∃ k, 52 - e = k + 1 := ⟨51 - e, by omega⟩
    rw [hk, pow_succ, ← mul_assoc]
    exact Int.mul_emod_left _ 2
  norm_num at fu
  have := f64Round_ge_of_binade
    (((d / Hour : ℤ) : ℚ) + f64Div (f64OfInt (d % Hour)) 3600000000000) (e : ℤ)
    (by rw [zpow_natCast]
        have : (0 : ℚ) < 2 ^ e / 2 ^ 53 := by positivity
        have : (2 : ℚ) ^ e / 2 ^ 53 ≤ 1 := by
          rw [div_le_one (by positivity)]
          norm_num
          linarith
        linarith)
    (by rw [zpow_add₀ (by norm_num : (2 : ℚ) ≠ 0), zpow_natCast, zpow_one]
        linarith)
    ((d / Hour + 1) * 2 ^ (52 - e)) hev
    (by rw [z52, z53, zN]
        linarith)
  rw [z52, zN] at this
  exact this

/-- An hour count one spacing of its binade under `24 * T` gives a day count
below `T`. -/
theorem day_lt_of_hours_binade (r : ℚ) (hr0 : 0 ≤ r) (T : ℤ) (e : ℕ) (he : e ≤ 21)
    (hT : 24 * T ≤ 2 ^ (e + 1)) (h : r ≤ 24 * T - 2 ^ e / 2 ^ 52) :
    f64ToInt (f64Div r 24) < T := by
  have hP0 : (0 : ℚ) < 2 ^ e := by positivity
  have cT : (24 : ℚ) * T ≤ 2 * 2 ^ e := by
    have : ((24 * T : ℤ) : ℚ) ≤ ((2 ^ (e + 1) : ℤ) : ℚ) := by exact_mod_cast hT
    push_cast at this
    rw [pow_succ] at this
    linarith
  have hmul := two_pow_sub_mul 56 e (by omega)
  have zE : (2 : ℚ) ^ ((e : ℤ) - 3) = 2 ^ e / 8 := by
    have := two_zpow_natCast_sub e 3
    push_cast at this
    rw [this]
    norm_num
  have z56 : (2 : ℚ) ^ ((e : ℤ) - 3 - 53) = 2 ^ e / 2 ^ 56 := by
    have := two_zpow_natCast_sub e 56
    push_cast at this
    rw [show (e : ℤ) - 3 - 53 = (e : ℤ) - 56 by ring]
    exact this
  have z57 : (2 : ℚ) ^ ((e : ℤ) - 3 - 54) = 2 ^ e / 2 ^ 57 := by
    have := two_zpow_natCast_sub e 57
    push_cast at this
    rw [show (e : ℤ) - 3 - 54 = (e : ℤ) - 57 by ring]
    exact this
  have zN : ((T * 2 ^ (56 - e) : ℤ) : ℚ) * (2 ^ e / 2 ^ 56) = T := by
    push_cast
    rw [mul_assoc, ← mul_div_assoc, hmul]
    field_simp
  have hq52 : (2 : ℚ) ^ e / 2 ^ 52 = 32 * (2 ^ e / 2 ^ 57) := by ring
  have hq57 : (0 : ℚ) < 2 ^ e / 2 ^ 57 := by positivity
  have hw0 : 0 ≤ r / 24 := by positivity
  have hwE : r / 24 < 2 ^ ((e : ℤ) - 3) := by
    rw [zE, div_lt_iff₀ (by norm_num)]
    linarith
  have hv0 : 0 ≤ f64Div r 24 := f64Round_nonneg _ hw0 _ hwE
  rw [f64ToInt_of_nonneg _ hv0, Int.floor_lt]
  have := f64Round_le_of_lt_half (r / 24) hw0 ((e : ℤ) - 3) hwE (T * 2 ^ (56 - e))
    (by rw [z56, z57, zN, div_lt_iff₀ (by norm_num)]
        linarith)
  rw [z56, z57, zN] at this
  unfold f64Div
  linarith

theorem two_pow_int_le (e : ℕ) (he : e ≤ 21) : (2 : ℤ) ^ e ≤ 2097152 := by
  have : (2 : ℤ) ^ e ≤ 2 ^ 21 := pow_le_pow_right₀ (by norm_num) he
  norm_num at this
  exact this

theorem exists_binade (h : ℤ) (h1 : 1 ≤ h) : ∃ e : ℕ, (2 : ℤ) ^ e ≤ h ∧ h < 2 ^ (e + 1) := by
  obtain ⟨a, b⟩ := ilog2_spec h.toNat (by omega)
  have hc : (h.toNat : ℤ) = h := Int.toNat_of_nonneg (by omega)
  refine ⟨ilog2 h.toNat, ?_, ?_⟩
  · have : ((2 ^ ilog2 h.toNat : ℕ) : ℤ) ≤ (h.toNat : ℤ) := by exact_mod_cast a
    rw [hc] at this
    push_cast at this
    exact this
  · have : (h.toNat : ℤ) < ((2 ^ (ilog2 h.toNat + 1) : ℕ) : ℤ) := by exact_mod_cast b
    rw [hc] at this
    push_cast at this
    exact this

/-- The day count in the last hour before a whole number of days, for an hour
count in the binade of `2 ^ e`: it is the whole number of days when the time
left to the next hour is more than `Hour * (2^(e+1) + 1) / 2^54` nanoseconds,
and one more when it is less. -/
theorem dayOf_last_hour (d : ℤ) (h0 : 0 ≤ d) (hmax : d ≤ maxDuration)
    (h23 : d / Hour % 24 = 23) (e : ℕ) (he1 : (2 : ℤ) ^ e ≤ d / Hour)
    (he2 : d / Hour < 2 ^ (e + 1)) :
    (Hour * (2 ^ (e + 1) + 1) < (Hour - d % Hour) * 2 ^ 54 →
        f64ToInt (f64Div (Hours d) 24) = d / Day)
      ∧ ((Hour - d % Hour) * 2 ^ 54 < Hour * (2 ^ (e + 1) + 1) →
        f64ToInt (f64Div (Hours d) 24) = d / Day + 1) := by
  have he : e ≤ 21 := binade_le_of_hours d hmax e he1
  have hT : d / Hour + 1 = 24 * (d / Hour / 24 + 1) := by omega
  have hTc : ((d / Hour : ℤ) : ℚ) + 1 = 24 * ((d / Hour / 24 + 1 : ℤ) : ℚ) := by
    have : ((d / Hour + 1 : ℤ) : ℚ) = ((24 * (d / Hour / 24 + 1) : ℤ) : ℚ) := by
      exact_mod_cast hT
    push_cast at this ⊢
    exact this
  constructor
  · intro hgap
    have hr := Hours_le_of_gap d h0 hmax e he1 (by omega) hgap
    have hlt := day_lt_of_hours_binade (Hours d) (Hours_nonneg d h0 hmax) (d / Hour / 24 + 1) e he
      (by omega) (by rw [← hTc]; exact hr)
    have hlo := dayOf_ge d h0 hmax (d / Hour / 24) (by omega)
    rw [ediv_Day]
    omega
  · intro hgap
    have he0 : 1 ≤ e := by
      by_contra hcon
      have : e = 0 := by omega
      subst this
      norm_num at he2
      omega
    have hr := Hours_ge_of_gap d h0 hmax e he0 he1 (by omega) hgap
    have hge := day_ge_of_hours (Hours d) (Hours_nonneg d h0 hmax) (Hours_le_bound d h0 hmax)
      (d / Hour / 24 + 1) (by rw [← hTc]; exact hr)
    have hlt := dayOf_lt_early d h0 hmax (d / Hour / 24 + 2) (by omega)
    rw [ediv_Day]
    omega

/-- The day count is the whole number of days when at least 839 nanoseconds
are left to the next whole number of days. -/
theorem dayOf_eq_of_gap (d : ℤ) (h0 : 0 ≤ d) (hmax : d ≤ maxDuration)
    (hgap : d % Day ≤ Day - 839) : f64ToInt (f64Div (Hours d) 24) = d / Day := by
  by_cases h23 : d / Hour % 24 = 23
  · have hh0 : 0 ≤ d / Hour := Int.ediv_nonneg h0 (by decide)
    obtain ⟨e, he1, he2⟩ := exists_binade (d / Hour) (by omega)
    have he : e ≤ 21 := binade_le_of_hours d hmax e he1
    have hP := two_pow_int_le e he
    apply (dayOf_last_hour d h0 hmax h23 e he1 he2).1
    have hn : d % Hour ≤ Hour - 839 := by
      unfold Day at hgap
      unfold Hour at h23 ⊢
      omega
    rw [pow_succ]
    unfold Hour at hn ⊢
    generalize (2 : ℤ) ^ e = P at hP
    generalize d % 3600000000000 = n at hn
    norm_num
    omega
  · exact dayOf_eq d h0 (Or.inr ⟨hmax, h23⟩)

theorem dayOf_maxDuration : f64ToInt (f64Div (Hours maxDuration) 24) = 106751 := by
  decide!

/-- Beyond the largest `Duration` the difference saturates and the day count
is 106751. -/
theorem dayCount_saturated (t now : ℤ) (h : maxDuration < t - now) :
    dayCount t now = 106751 := by
  have hle : now ≤ t := by unfold maxDuration at h; omega
  unfold dayCount
  rw [Sub_of_le t now hle, if_neg (by omega)]
  exact dayOf_maxDuration

/-- The exact reach of the floor: for a difference that fits a `Duration`, with
its whole hours in the binade of `2 ^ e`, the day count is the whole number of
days exactly when the time left to the next whole number of days, times `2^54`,
exceeds `Hour * (2^(e+1) + 1)`; otherwise it is one more. -/
theorem dayCount_exact (t now : ℤ) (h : now ≤ t) (hmax : t - now ≤ maxDuration) (e : ℕ)
    (he1 : (2 : ℤ) ^ e ≤ (t - now) / Hour) (he2 : (t - now) / Hour < 2 ^ (e + 1)) :
    (dayCount t now = (t - now) / Day
        ↔ Hour * (2 ^ (e + 1) + 1) < (Day - (t - now) % Day) * 2 ^ 54)
      ∧ ((Day - (t - now) % Day) * 2 ^ 54 < Hour * (2 ^ (e + 1) + 1) →
        dayCount t now = (t - now) / Day + 1) := by
  have hs : Sub t now = t - now := by rw [Sub_of_le t now h]; simp [hmax]
  have he : e ≤ 21 := binade_le_of_hours (t - now) hmax e he1
  have hP := two_pow_int_le e he
  by_cases h23 : (t - now) / Hour % 24 = 23
  · have hg : Day - (t - now) % Day = Hour - (t - now) % Hour := by
      unfold Day
      unfold Hour at h23 ⊢
      omega
    obtain ⟨good, bad⟩ := dayOf_last_hour (t - now) (by omega) hmax h23 e he1 he2
    unfold dayCount
    rw [hs, hg]
    refine ⟨⟨fun heq => ?_, good⟩, bad⟩
    by_contra hcon
    have hne := gap_ne ((t - now) % Hour) e
    have hlt : (Hour - (t - now) % Hour) * 2 ^ 54 < Hour * (2 ^ (e + 1) + 1) := by omega
    have := bad hlt
    omega
  · have heq : dayCount t now = (t - now) / Day := by
      unfold dayCount
      rw [hs]
      exact dayOf_eq (t - now) (by omega) (Or.inr ⟨hmax, h23⟩)
    have hg : Hour < Day - (t - now) % Day := by
      unfold Day
      unfold Hour at h23 ⊢
      omega
    have hgood : Hour * (2 ^ (e + 1) + 1) < (Day - (t - now) % Day) * 2 ^ 54 := by
      rw [pow_succ]
      unfold Hour at hg ⊢
      generalize (2 : ℤ) ^ e = P at hP
      generalize Day - (t - now) % Day = g at hg
      norm_num
      omega
    refine ⟨⟨fun _ => hgood, fun _ => heq⟩, fun hbad => ?_⟩
    omega

theorem dayCount_eq_of_gap (t now : ℤ) (h : now ≤ t) (hmax : t - now ≤ maxDuration)
    (hgap : (t - now) % Day ≤ Day - 839) : dayCount t now = (t - now) / Day := by
  have hs : Sub t now = t - now := by rw [Sub_of_le t now h]; simp [hmax]
  unfold dayCount
  rw [hs]
  exact dayOf_eq_of_gap (t - now) (by omega) hmax hgap

/-! ## The day count in `main` -/

theorem AddDate_eq (c : Civil) : AddDate c = c.toTime + Day := by
  unfold AddDate Civil.toTime Date
  ring

/-- C6, counterexample: on 2025-05-28, one nanosecond after midnight, the event
dated 2025-11-14 has its deadline 171 days minus one nanosecond ahead.  The
whole number of days is 170, but `Hours` rounds the hour count up to 4104 and
the day count is 171. -/
theorem C6_counterexample :
    ParseInLocation "2025-11-14" = some ⟨2025, 11, 14⟩
      ∧ ¬ AddDate ⟨2025, 11, 14⟩ < Date 2025 5 28 + 1
      ∧ AddDate ⟨2025, 11, 14⟩ - (Date 2025 5 28 + 1) = 171 * Day - 1
      ∧ (AddDate ⟨2025, 11, 14⟩ - (Date 2025 5 28 + 1)) / Day = 170
      ∧ dayCount (AddDate ⟨2025, 11, 14⟩) (Date 2025 5 28 + 1) = 171
      ∧ dayCount (AddDate ⟨2025, 11, 14⟩) (Date 2025 5 28 + 1)
          ≠ (AddDate ⟨2025, 11, 14⟩ - (Date 2025 5 28 + 1)) / Day
      ∧ evalEvent (Date 2025 5 28 + 1) (Event.mk "trip" "2025-11-14")
          = [Step.infoEvent "trip" "2025-11-14" 171] := by
  decide!

/-- C6, amended: for an event whose date parses and that is not expired, `main`
logs the day count `dayCount deadline now`, which is never negative and is 0
when the deadline is less than a day away.  It equals the floor of
(deadline - now) / 24 hours whenever deadline - now is less than 171 days minus
one nanosecond, and whenever it fits a `Duration` and the next whole number of
days is at least 839 nanoseconds away.  Exactly: when the difference fits a
`Duration` and its whole hours lie in the binade of `2 ^ k`, the day count is
the floor if and only if the nanoseconds left to the next whole number of days,
times `2^54`, exceed `Hour * (2^(k+1) + 1)`, and it is the floor plus one
otherwise.  When the difference is more than a `Duration` holds the day count is
106751.  Instance: the date 2025-06-01 at now = 2025-05-28 00:00 has the
deadline 2025-06-02 and the day count 5, and is forwarded; the body then holds
the title and the number 5. -/
theorem C6_day_count_is_floor (now : Int) (e : Event) (c : Civil)
    (hparse : ParseInLocation e.Time = some c) (halive : ¬ AddDate c < now) :
    Step.infoEvent e.Title e.Time (dayCount (AddDate c) now) ∈ evalEvent now e
      ∧ 0 ≤ dayCount (AddDate c) now
      ∧ (AddDate c - now < Day → dayCount (AddDate c) now = 0)
      ∧ (AddDate c - now < 171 * Day - 1 →
          dayCount (AddDate c) now = (AddDate c - now) / Day)
      ∧ (AddDate c - now ≤ maxDuration → (AddDate c - now) % Day ≤ Day - 839 →
          dayCount (AddDate c) now = (AddDate c - now) / Day)
      ∧ (AddDate c - now ≤ maxDuration →
          ∀ k : ℕ, 2 ^ k ≤ (AddDate c - now) / Hour → (AddDate c - now) / Hour < 2 ^ (k + 1) →
            (dayCount (AddDate c) now = (AddDate c - now) / Day
                ↔ Hour * (2 ^ (k + 1) + 1) < (Day - (AddDate c - now) % Day) * 2 ^ 54)
              ∧ ((Day - (AddDate c - now) % Day) * 2 ^ 54 < Hour * (2 ^ (k + 1) + 1) →
                dayCount (AddDate c) now = (AddDate c - now) / Day + 1))
      ∧ (maxDuration < AddDate c - now → dayCount (AddDate c) now = 106751)
      ∧ (e.Time = "2025-06-01" → now = Date 2025 5 28 →
          AddDate c = Date 2025 6 2
            ∧ evalEvent now e = [Step.infoEvent e.Title e.Time 5, Step.notification e 5]
            ∧ body e 5 = "距离「" ++ e.Title ++ "」还有5天\n\n") := by
  have hle : now ≤ AddDate c := by omega
  refine ⟨?_, dayCount_nonneg _ _ hle, ?_, fun h => dayCount_eq _ _ hle (Or.inl h),
    fun h1 h2 => dayCount_eq_of_gap _ _ hle h1 h2,
    fun h1 k hk1 hk2 => dayCount_exact _ _ hle h1 k hk1 hk2,
    fun h => dayCount_saturated _ _ h, ?_⟩
  · rw [evalEvent_of_alive now e c hparse halive]
    split <;> simp
  · intro h
    rw [dayCount_eq _ _ hle (Or.inl (by unfold Day at h ⊢; omega))]
    unfold Day at h ⊢
    omega
  · intro ht hnow
    have hc : c = ⟨2025, 6, 1⟩ := by
      rw [ht] at hparse
      have : ParseInLocation "2025-06-01" = some ⟨2025, 6, 1⟩ := by decide
      rw [this] at hparse
      exact (Option.some.inj hparse).symm
    subst hc
    subst hnow
    have hday : dayCount (AddDate ⟨2025, 6, 1⟩) (Date 2025 5 28) = 5 := by
      rw [dayCount_eq _ _ (by decide) (Or.inl (by decide))]
      decide
    refine ⟨by decide, ?_, body_five e⟩
    rw [evalEvent_of_alive _ e _ hparse halive, hday]
    simp

theorem C6_witness :
    (ParseInLocation (Event.mk "trip" "2025-06-01").Time = some ⟨2025, 6, 1⟩
        ∧ ¬ AddDate ⟨2025, 6, 1⟩ < Date 2025 5 28
        ∧ AddDate ⟨2025, 6, 1⟩ - Date 2025 5 28 < 171 * Day - 1
        ∧ (AddDate ⟨2025, 6, 1⟩ - Date 2025 5 28) / Day = 5
        ∧ dayCount (AddDate ⟨2025, 6, 1⟩) (Date 2025 5 28)
            = (AddDate ⟨2025, 6, 1⟩ - Date 2025 5 28) / Day
        ∧ evalEvent (Date 2025 5 28) (Event.mk "trip" "2025-06-01")
            = [Step.infoEvent "trip" "2025-06-01" 5,
                Step.notification (Event.mk "trip" "2025-06-01") 5])
      ∧ (ParseInLocation (Event.mk "trip" "2025-11-14").Time = some ⟨2025, 11, 14⟩
        ∧ ¬ AddDate ⟨2025, 11, 14⟩ < Date 2025 5 28 + 2
        ∧ AddDate ⟨2025, 11, 14⟩ - (Date 2025 5 28 + 2) = 171 * Day - 2
        ∧ (AddDate ⟨2025, 11, 14⟩ - (Date 2025 5 28 + 2)) / Hour = 4103
        ∧ Hour * (2 ^ (12 + 1) + 1)
            < (Day - (AddDate ⟨2025, 11, 14⟩ - (Date 2025 5 28 + 2)) % Day) * 2 ^ 54
        ∧ (AddDate ⟨2025, 11, 14⟩ - (Date 2025 5 28 + 2)) / Day = 170
        ∧ dayCount (AddDate ⟨2025, 11, 14⟩) (Date 2025 5 28 + 2)
            = (AddDate ⟨2025, 11, 14⟩ - (Date 2025 5 28 + 2)) / Day) :=
  ⟨⟨by decide, by decide, by decide, by decide,
      (C6_day_count_is_floor (Date 2025 5 28) (Event.mk "trip" "2025-06-01") ⟨2025, 6, 1⟩
        (by decide) (by decide)).2.2.2.1 (by decide),
      ((C6_day_count_is_floor (Date 2025 5 28) (Event.mk "trip" "2025-06-01") ⟨2025, 6, 1⟩
        (by decide) (by decide)).2.2.2.2.2.2.2 rfl rfl).2.1⟩,
    ⟨by decide, by decide, by decide, by decide, by decide, by decide,
      (((C6_day_count_is_floor (Date 2025 5 28 + 2) (Event.mk "trip" "2025-11-14")
        ⟨2025, 11, 14⟩ (by decide) (by decide)).2.2.2.2.2.1 (by decide) 12 (by decide)
          (by decide)).1).mpr (by decide)⟩⟩

/-! ## Events around today -/

theorem dayCount_self (now : Int) : dayCount now now = 0 := by
  have h := dayCount_eq now now (le_refl now) (Or.inl (by simp; decide))
  simpa using h

/-- C7, counterexample: at now = 2025-05-28 00:00:00 exactly, the event dated
2025-05-27, one day before now, has the deadline 2025-05-28 00:00:00, which is
not before now: it is not expired and is forwarded with day count 0. -/
theorem C7_counterexample :
    ParseInLocation "2025-05-27" = some ⟨2025, 5, 27⟩
      ∧ Civil.toTime ⟨2025, 5, 27⟩ = Date 2025 5 28 - Day
      ∧ AddDate ⟨2025, 5, 27⟩ = Date 2025 5 28
      ∧ ¬ AddDate ⟨2025, 5, 27⟩ < Date 2025 5 28
      ∧ evalEvent (Date 2025 5 28) (Event.mk "fair" "2025-05-27")
          = [Step.infoEvent "fair" "2025-05-27" 0,
              Step.notification (Event.mk "fair" "2025-05-27") 0] := by
  decide!

/-- C7, amended: take an event dated the calendar day before the date of
`now`.  Its deadline is local midnight of the date of `now`.  When `now` is
strictly after that midnight the event is expired and not forwarded; when `now`
is that midnight exactly the deadline equals `now`, the event is not expired and
is forwarded with day count 0.  An event whose deadline is before `now`, as the
one dated 2025-05-26 with deadline 2025-05-27 at any `now` from 2025-05-28 00:00
on, is expired and not forwarded. -/
theorem C7_day_before_expired_after_midnight (now : Int) (e : Event) (c : Civil)
    (hparse : ParseInLocation e.Time = some c) :
    (c.toTime = now - now % Day - Day →
        AddDate c = now - now % Day
          ∧ (now % Day ≠ 0 →
              evalEvent now e = [Step.warnExpired e.Title e.Time]
                ∧ forwarded (evalEvent now e) = [])
          ∧ (now % Day = 0 →
              evalEvent now e = [Step.infoEvent e.Title e.Time 0, Step.notification e 0]))
      ∧ (e.Time = "2025-05-26" → Date 2025 5 28 ≤ now →
          AddDate c = Date 2025 5 27
            ∧ evalEvent now e = [Step.warnExpired e.Title e.Time]
            ∧ forwarded (evalEvent now e) = []) := by
  constructor
  · intro hc
    have hdl : AddDate c = now - now % Day := by rw [AddDate_eq, hc]; ring
    refine ⟨hdl, ?_, ?_⟩
    · intro hr
      have h0 : 0 ≤ now % Day := Int.emod_nonneg now (by decide)
      have hlt : AddDate c < now := by omega
      rw [evalEvent_of_expired now e c hparse hlt]
      exact ⟨rfl, rfl⟩
    · intro hr
      have heq : AddDate c = now := by omega
      rw [evalEvent_of_alive now e c hparse (by omega), heq, dayCount_self]
      simp
  · intro ht hnow
    have hc : c = ⟨2025, 5, 26⟩ := by
      rw [ht] at hparse
      have : ParseInLocation "2025-05-26" = some ⟨2025, 5, 26⟩ := by decide
      rw [this] at hparse
      exact (Option.some.inj hparse).symm
    subst hc
    have hd : AddDate ⟨2025, 5, 26⟩ = Date 2025 5 27 := by decide
    have hlt : AddDate ⟨2025, 5, 26⟩ < now := by
      have : Date 2025 5 27 < Date 2025 5 28 := by decide
      omega
    rw [evalEvent_of_expired now e _ hparse hlt]
    exact ⟨hd, rfl, rfl⟩

theorem C7_witness :
    (ParseInLocation (Event.mk "fair" "2025-05-27").Time = some ⟨2025, 5, 27⟩
        ∧ Civil.toTime ⟨2025, 5, 27⟩ = (Date 2025 5 28 + 1) - (Date 2025 5 28 + 1) % Day - Day
        ∧ (Date 2025 5 28 + 1) % Day ≠ 0
        ∧ evalEvent (Date 2025 5 28 + 1) (Event.mk "fair" "2025-05-27")
            = [Step.warnExpired "fair" "2025-05-27"]
        ∧ forwarded (evalEvent (Date 2025 5 28 + 1) (Event.mk "fair" "2025-05-27")) = [])
      ∧ (ParseInLocation (Event.mk "fair" "2025-05-26").Time = some ⟨2025, 5, 26⟩
        ∧ (Event.mk "fair" "2025-05-26").Time = "2025-05-26"
        ∧ Date 2025 5 28 ≤ Date 2025 5 28
        ∧ AddDate ⟨2025, 5, 26⟩ = Date 2025 5 27
        ∧ evalEvent (Date 2025 5 28) (Event.mk "fair" "2025-05-26")
            = [Step.warnExpired "fair" "2025-05-26"]
        ∧ forwarded (evalEvent (Date 2025 5 28) (Event.mk "fair" "2025-05-26")) = []) :=
  ⟨⟨by decide, by decide, by decide,
      ((C7_day_before_expired_after_midnight (Date 2025 5 28 + 1) (Event.mk "fair" "2025-05-27")
        ⟨2025, 5, 27⟩ (by decide)).1 (by decide)).2.1 (by decide)⟩,
    ⟨by decide, rfl, le_refl _,
      (C7_day_before_expired_after_midnight (Date 2025 5 28) (Event.mk "fair" "2025-05-26")
        ⟨2025, 5, 26⟩ (by decide)).2 rfl (le_refl _)⟩⟩

/-- C10, counterexamples.  One nanosecond after midnight of 2025-01-01 the
event dated 170 days later, 2025-06-20, gets the day count 171.  At midnight of
2025-05-28 exactly the event dated 106751 days later, 2317-09-06, has its
deadline 106752 days ahead, more than a `Duration` holds, and gets the day count
106751. -/
theorem C10_counterexample :
    (ParseInLocation "2025-06-20" = some ⟨2025, 6, 20⟩
        ∧ (Date 2025 1 1 + 1) % Day ≠ 0
        ∧ Civil.toTime ⟨2025, 6, 20⟩ = (Date 2025 1 1 + 1) - (Date 2025 1 1 + 1) % Day + 170 * Day
        ∧ dayCount (AddDate ⟨2025, 6, 20⟩) (Date 2025 1 1 + 1) = 171
        ∧ evalEvent (Date 2025 1 1 + 1) (Event.mk "trip" "2025-06-20")
            = [Step.infoEvent "trip" "2025-06-20" 171])
      ∧ (ParseInLocation "2317-09-06" = some ⟨2317, 9, 6⟩
        ∧ Date 2025 5 28 % Day = 0
        ∧ Civil.toTime ⟨2317, 9, 6⟩ = Date 2025 5 28 - Date 2025 5 28 % Day + 106751 * Day
        ∧ dayCount (AddDate ⟨2317, 9, 6⟩) (Date 2025 5 28) = 106751
        ∧ evalEvent (Date 2025 5 28) (Event.mk "jubilee" "2317-09-06")
            = [Step.infoEvent "jubilee" "2317-09-06" 106751]) := by
  decide!

theorem forwarded_evalEvent_of_alive (now : Int) (e : Event) (c : Civil)
    (hparse : ParseInLocation e.Time = some c) (halive : ¬ AddDate c < now) :
    forwarded (evalEvent now e)
      = if dayCount (AddDate c) now ≤ 7 then [(e, dayCount (AddDate c) now)] else [] := by
  rw [evalEvent_of_alive now e c hparse halive]
  split <;> rfl

theorem forwarded_evalEvent_of_expired (now : Int) (e : Event) (c : Civil)
    (hparse : ParseInLocation e.Time = some c) (hlt : AddDate c < now) :
    forwarded (evalEvent now e) = [] := by
  rw [evalEvent_of_expired now e c hparse hlt]
  rfl

/-- After midnight: an event dated `d` days after today, `0 ≤ d ≤ 169`, has day
count `d`. -/
theorem dayCount_after_midnight (now dl d : Int) (hr : now % Day ≠ 0)
    (hdl : dl = now - now % Day + (d + 1) * Day) (hd0 : 0 ≤ d) (hd1 : d ≤ 169) :
    dayCount dl now = d := by
  have h0 : 0 ≤ now % Day := Int.emod_nonneg now (by decide)
  have h1 : now % Day < Day := Int.emod_lt_of_pos now (by decide)
  unfold Day at hdl h0 h1 hr
  have hle : now ≤ dl := by omega
  rw [dayCount_eq dl now hle (Or.inl (by unfold Day; omega))]
  unfold Day
  omega

/-- From 839 nanoseconds after midnight on: an event dated `d` days after
today, `0 ≤ d ≤ 106751`, has day count `d`. -/
theorem dayCount_after_midnight_of_gap (now dl d : Int) (hgap : 839 ≤ now % Day)
    (hdl : dl = now - now % Day + (d + 1) * Day) (hd0 : 0 ≤ d) (hd1 : d ≤ 106751) :
    dayCount dl now = d := by
  have h1 : now % Day < Day := Int.emod_lt_of_pos now (by decide)
  unfold Day at hdl h1 hgap
  have hle : now ≤ dl := by omega
  by_cases hsat : maxDuration < dl - now
  · rw [dayCount_saturated dl now hsat]
    unfold maxDuration at hsat
    omega
  · rw [dayCount_eq_of_gap dl now hle (by omega) (by unfold Day; omega)]
    unfold Day
    omega

/-- After midnight, exactly: an event dated `d` days after today,
`0 ≤ d ≤ 106750`, with `24 * d + 23` in the binade of `2 ^ k`, has day count `d`
if and only if the nanoseconds since midnight, times `2^54`, exceed
`Hour * (2^(k+1) + 1)`, and day count `d + 1` otherwise. -/
theorem dayCount_after_midnight_exact (now dl d : Int) (hr : now % Day ≠ 0)
    (hdl : dl = now - now % Day + (d + 1) * Day) (hd0 : 0 ≤ d) (hd1 : d ≤ 106750) (k : ℕ)
    (hk1 : (2 : ℤ) ^ k ≤ 24 * d + 23) (hk2 : 24 * d + 23 < 2 ^ (k + 1)) :
    (dayCount dl now = d ↔ Hour * (2 ^ (k + 1) + 1) < now % Day * 2 ^ 54)
      ∧ (now % Day * 2 ^ 54 < Hour * (2 ^ (k + 1) + 1) → dayCount dl now = d + 1) := by
  have h0 : 0 ≤ now % Day := Int.emod_nonneg now (by decide)
  have h1 : now % Day < Day := Int.emod_lt_of_pos now (by decide)
  have hk : k ≤ 21 := binade_le (24 * d + 23) k (by omega) hk1
  have hP := two_pow_int_le k hk
  have hle : now ≤ dl := by unfold Day at hdl h0 h1 hr; omega
  have hmax : dl - now ≤ maxDuration := by
    unfold Day at hdl h0 h1 hr
    unfold maxDuration
    omega
  have hfloor : (dl - now) / Day = d := by unfold Day at hdl h0 h1 hr ⊢; omega
  have hgapeq : Day - (dl - now) % Day = now % Day := by
    unfold Day at hdl h0 h1 hr ⊢
    omega
  by_cases hlast : now % Day ≤ Hour
  · have hH : (dl - now) / Hour = 24 * d + 23 := by
      unfold Day at hdl h0 h1 hr hlast
      unfold Hour at hlast ⊢
      omega
    have := dayCount_exact dl now hle hmax k (by rw [hH]; exact hk1) (by rw [hH]; exact hk2)
    rw [hfloor, hgapeq] at this
    exact this
  · have heq : dayCount dl now = d := by
      rw [dayCount_eq_of_gap dl now hle hmax (by unfold Day Hour at *; omega), hfloor]
    have hgood : Hour * (2 ^ (k + 1) + 1) < now % Day * 2 ^ 54 := by
      rw [pow_succ]
      unfold Hour at hlast ⊢
      generalize (2 : ℤ) ^ k = P at hP
      generalize now % Day = r at hlast
      norm_num
      omega
    exact ⟨⟨fun _ => hgood, fun _ => heq⟩, fun hbad => by omega⟩

/-- After midnight: an event dated 106751 days or more after today has day
count 106751. -/
theorem dayCount_after_midnight_far (now dl d : Int)
    (hdl : dl = now - now % Day + (d + 1) * Day) (hd : 106751 ≤ d) :
    dayCount dl now = 106751 := by
  have h0 : 0 ≤ now % Day := Int.emod_nonneg now (by decide)
  have h1 : now % Day < Day := Int.emod_lt_of_pos now (by decide)
  by_cases hsat : maxDuration < dl - now
  · exact dayCount_saturated dl now hsat
  · have hd1 : d = 106751 := by
      unfold Day at hdl h0 h1
      unfold maxDuration at hsat
      omega
    subst hd1
    exact dayCount_after_midnight_of_gap now dl 106751
      (by unfold Day at hdl h0 h1 ⊢; unfold maxDuration at hsat; omega) hdl (by decide)
      (by decide)

/-- At midnight exactly: an event dated `d ≥ -1` days after today has day count
`d + 1`, as long as `d + 1` days fit a `Duration`. -/
theorem dayCount_at_midnight (now dl d : Int) (hr : now % Day = 0)
    (hdl : dl = now - now % Day + (d + 1) * Day) (hd0 : -1 ≤ d) (hd1 : d + 1 ≤ 106751) :
    dayCount dl now = d + 1 := by
  unfold Day at hdl hr
  have hle : now ≤ dl := by omega
  rw [dayCount_eq dl now hle (Or.inr ⟨by unfold maxDuration; omega, by unfold Hour; omega⟩)]
  unfold Day
  omega

/-- At midnight exactly: an event dated 106750 days or more after today has day
count 106751. -/
theorem dayCount_at_midnight_far (now dl d : Int) (hr : now % Day = 0)
    (hdl : dl = now - now % Day + (d + 1) * Day) (hd : 106751 ≤ d + 1) :
    dayCount dl now = 106751 := by
  by_cases hd1 : d + 1 = 106751
  · rw [dayCount_at_midnight now dl d hr hdl (by omega) (by omega), hd1]
  · apply dayCount_saturated
    unfold Day at hdl hr
    unfold maxDuration
    omega

/-- C10, amended: every local day lasts 24 hours.  Let the event be dated `d`
days after the calendar date of `now`, and let `r` be the nanoseconds of `now`
since local midnight.  When `now` is strictly after local midnight (`r > 0`):
the day count is exactly `d` for `0 ≤ d ≤ 169`, and for `0 ≤ d ≤ 106751` from
839 nanoseconds after midnight on; exactly, for `0 ≤ d ≤ 106750` with
`24 * d + 23` in the binade of `2 ^ k`, the day count is `d` if and only if
`r * 2^54` exceeds `Hour * (2^(k+1) + 1)`, and `d + 1` otherwise; for
`d ≥ 106751` it is 106751.  An event dated today gets day 0 and the "today"
body; the event is forwarded exactly when `0 ≤ d ≤ 7`; every event dated before
today is expired.  When `now` is local midnight exactly: the day count is
`d + 1` for `-1 ≤ d` and `d + 1 ≤ 106751`, and 106751 beyond; the event is
forwarded exactly when `-1 ≤ d ≤ 6`. -/
theorem C10_day_count_by_calendar_distance (now : Int) (e : Event) (c : Civil) (d : Int)
    (hparse : ParseInLocation e.Time = some c)
    (hd : c.toTime = now - now % Day + d * Day) :
    (now % Day ≠ 0 →
        (0 ≤ d → d ≤ 169 → dayCount (AddDate c) now = d)
          ∧ (0 ≤ d → d ≤ 106751 → 839 ≤ now % Day → dayCount (AddDate c) now = d)
          ∧ (0 ≤ d → d ≤ 106750 →
              ∀ k : ℕ, 2 ^ k ≤ 24 * d + 23 → 24 * d + 23 < 2 ^ (k + 1) →
                (dayCount (AddDate c) now = d
                    ↔ Hour * (2 ^ (k + 1) + 1) < now % Day * 2 ^ 54)
                  ∧ (now % Day * 2 ^ 54 < Hour * (2 ^ (k + 1) + 1) →
                    dayCount (AddDate c) now = d + 1))
          ∧ (106751 ≤ d → dayCount (AddDate c) now = 106751)
          ∧ (d = 0 →
              evalEvent now e = [Step.infoEvent e.Title e.Time 0, Step.notification e 0]
                ∧ body e 0 = "今天「" ++ e.Title ++ "」\n\n")
          ∧ forwarded (evalEvent now e) = (if 0 ≤ d ∧ d ≤ 7 then [(e, d)] else [])
          ∧ (d < 0 → evalEvent now e = [Step.warnExpired e.Title e.Time]))
      ∧ (now % Day = 0 →
        (-1 ≤ d → d + 1 ≤ 106751 → dayCount (AddDate c) now = d + 1)
          ∧ (106751 ≤ d + 1 → dayCount (AddDate c) now = 106751)
          ∧ forwarded (evalEvent now e) = (if -1 ≤ d ∧ d ≤ 6 then [(e, d + 1)] else [])) := by
  have hdl : AddDate c = now - now % Day + (d + 1) * Day := by rw [AddDate_eq, hd]; ring
  have h0 : 0 ≤ now % Day := Int.emod_nonneg now (by decide)
  have h1 : now % Day < Day := Int.emod_lt_of_pos now (by decide)
  constructor
  · intro hr
    have hexp : d < 0 → AddDate c < now := by
      intro hneg
      unfold Day at hdl h0 h1 hr
      omega
    have halive : 0 ≤ d → ¬ AddDate c < now := by
      intro hpos
      unfold Day at hdl h0 h1 hr
      omega
    refine ⟨fun hd0 hd1 => dayCount_after_midnight now _ d hr hdl hd0 hd1,
      fun hd0 hd1 hg => dayCount_after_midnight_of_gap now _ d hg hdl hd0 hd1,
      fun hd0 hd1 k hk1 hk2 => dayCount_after_midnight_exact now _ d hr hdl hd0 hd1 k hk1 hk2,
      fun hfar => dayCount_after_midnight_far now _ d hdl hfar, ?_, ?_, ?_⟩
    · intro hz
      subst hz
      have hday := dayCount_after_midnight now _ 0 hr hdl (le_refl 0) (by decide)
      rw [evalEvent_of_alive now e c hparse (halive (le_refl 0)), hday]
      exact ⟨by simp, body_of_nonpos e 0 (le_refl 0)⟩
    · by_cases hneg : d < 0
      · rw [forwarded_evalEvent_of_expired now e c hparse (hexp hneg)]
        have : ¬ (0 ≤ d ∧ d ≤ 7) := by omega
        simp [this]
      · have hd0 : 0 ≤ d := by omega
        rw [forwarded_evalEvent_of_alive now e c hparse (halive hd0)]
        by_cases h7 : d ≤ 7
        · have hday := dayCount_after_midnight now _ d hr hdl hd0 (by omega)
          rw [hday]
          simp [hd0, h7]
        · have hge : 8 ≤ dayCount (AddDate c) now := by
            apply dayCount_ge _ _ 8 (by decide) (by decide)
            unfold Day at hdl h0 h1 hr ⊢
            omega
          have hn : ¬ dayCount (AddDate c) now ≤ 7 := by omega
          have : ¬ (0 ≤ d ∧ d ≤ 7) := by omega
          simp [hn, this]
    · intro hneg
      exact evalEvent_of_expired now e c hparse (hexp hneg)
  · intro hr
    have hexp : d < -1 → AddDate c < now := by
      intro hneg
      unfold Day at hdl h0 h1 hr
      omega
    have halive : -1 ≤ d → ¬ AddDate c < now := by
      intro hpos
      unfold Day at hdl h0 h1 hr
      omega
    refine ⟨fun hd0 hd1 => dayCount_at_midnight now _ d hr hdl hd0 hd1,
      fun hfar => dayCount_at_midnight_far now _ d hr hdl hfar, ?_⟩
    by_cases hneg : d < -1
    · rw [forwarded_evalEvent_of_expired now e c hparse (hexp hneg)]
      have : ¬ (-1 ≤ d ∧ d ≤ 6) := by omega
      simp [this]
    · have hd0 : -1 ≤ d := by omega
      rw [forwarded_evalEvent_of_alive now e c hparse (halive hd0)]
      by_cases h6 : d ≤ 6
      · have hday := dayCount_at_midnight now _ d hr hdl hd0 (by omega)
        rw [hday]
        have : d + 1 ≤ 7 := by omega
        simp [hd0, h6, this]
      · have hge : 8 ≤ dayCount (AddDate c) now := by
          apply dayCount_ge _ _ 8 (by decide) (by decide)
          unfold Day at hdl h0 h1 hr ⊢
          omega
        have hn : ¬ dayCount (AddDate c) now ≤ 7 := by omega
        have : ¬ (-1 ≤ d ∧ d ≤ 6) := by omega
        simp [hn, this]

theorem C10_witness :
    (ParseInLocation (Event.mk "trip" "2025-06-01").Time = some ⟨2025, 6, 1⟩
        ∧ Civil.toTime ⟨2025, 6, 1⟩
            = (Date 2025 5 28 + 1) - (Date 2025 5 28 + 1) % Day + 4 * Day
        ∧ (Date 2025 5 28 + 1) % Day ≠ 0
        ∧ dayCount (AddDate ⟨2025, 6, 1⟩) (Date 2025 5 28 + 1) = 4
        ∧ forwarded (evalEvent (Date 2025 5 28 + 1) (Event.mk "trip" "2025-06-01"))
            = [(Event.mk "trip" "2025-06-01", 4)])
      ∧ (ParseInLocation (Event.mk "trip" "2025-06-20").Time = some ⟨2025, 6, 20⟩
        ∧ Civil.toTime ⟨2025, 6, 20⟩
            = (Date 2025 1 1 + 2) - (Date 2025 1 1 + 2) % Day + 170 * Day
        ∧ (Date 2025 1 1 + 2) % Day ≠ 0
        ∧ Hour * (2 ^ (12 + 1) + 1) < (Date 2025 1 1 + 2) % Day * 2 ^ 54
        ∧ dayCount (AddDate ⟨2025, 6, 20⟩) (Date 2025 1 1 + 2) = 170) :=
  ⟨⟨by decide, by decide, by decide,
      ((C10_day_count_by_calendar_distance (Date 2025 5 28 + 1) (Event.mk "trip" "2025-06-01")
        ⟨2025, 6, 1⟩ 4 (by decide) (by decide)).1 (by decide)).1 (by decide) (by decide),
      ((C10_day_count_by_calendar_distance (Date 2025 5 28 + 1) (Event.mk "trip" "2025-06-01")
        ⟨2025, 6, 1⟩ 4 (by decide) (by decide)).1 (by decide)).2.2.2.2.2.1⟩,
    ⟨by decide, by decide, by decide, by decide,
      ((((C10_day_count_by_calendar_distance (Date 2025 1 1 + 2) (Event.mk "trip" "2025-06-20")
        ⟨2025, 6, 20⟩ 170 (by decide) (by decide)).1 (by decide)).2.2.1 (by decide) (by decide)
          12 (by decide) (by decide)).1).mpr (by decide)⟩⟩

end Reminder
